import Mathlib

/-!
Verification development for the SEC data-collection repository.

This file gives a shallow embedding, in Lean 4, of the reconciliation core of
the repository (numeric normalizers, vendor period-label parsing, the vendor
metric-table merge, the XBRL consolidated-totals extractor, the tolerance
step-up matcher, the evidence aggregator / mapping builder and the batch
loop), together with theorems settling the specification claims about it.

Conventions of the embedding:
* Python floats are modelled as rationals (`ℚ`); the numeric claims are about
  exact decimal arithmetic, which `ℚ` represents faithfully.
* Python dicts are modelled as association lists in insertion order; updating
  an existing key rewrites its value in place, a new key is appended (the
  semantics of CPython dict assignment and `setdefault`).
* Python exceptions are modelled with `Except`: a raising function returns
  `.error`, a `try/except` boundary pattern-matches on the result.
* `str.strip()` is modelled by `pyStripChars`, Python's `float()` builtin by
  `pyFloatChars` (finite decimal and scientific literals; the exotic
  `inf`/`nan`/underscore forms accepted by CPython do not occur in this
  pipeline and are not modelled).
-/

namespace SecData

/-- Whitespace characters stripped by Python's `str.strip()`. -/
def isPySpace (c : Char) : Bool :=
  c = ' ' || c = '\t' || c = '\n' || c = '\r' || c = '\x0b' || c = '\x0c'

/-- Python `str.strip()` on a character list: drop whitespace at both ends. -/
def pyStripChars (cs : List Char) : List Char :=
  ((cs.dropWhile isPySpace).reverse.dropWhile isPySpace).reverse

/-- Python `str.strip()` on a string. -/
def pyStrip (s : String) : String :=
  String.mk (pyStripChars s.data)

/-- Numeric value of a list of decimal digit characters (most significant first). -/
def digitsToNat (ds : List Char) : ℕ :=
  ds.foldl (fun a c => 10 * a + (c.toNat - 48)) 0

/-- Consume an optional leading sign; return the sign as a rational factor and
the rest of the input. -/
def takeSign : List Char → ℚ × List Char
  | [] => (1, [])
  | c :: rest =>
    if c = '+' then (1, rest)
    else if c = '-' then (-1, rest)
    else (1, c :: rest)

/-- Mantissa of a Python float literal: `digits`, `digits.digits`, `digits.` or
`.digits` (at least one digit overall).  Returns its value and the rest. -/
def takeMantissa (cs : List Char) : Option (ℚ × List Char) :=
  let p1 := cs.span Char.isDigit
  match p1.2 with
  | '.' :: r2 =>
    let p2 := r2.span Char.isDigit
    if p1.1.isEmpty && p2.1.isEmpty then none
    else some ((digitsToNat p1.1 : ℚ) + (digitsToNat p2.1 : ℚ) / (10 ^ p2.1.length), p2.2)
  | _ => if p1.1.isEmpty then none else some ((digitsToNat p1.1 : ℚ), p1.2)

/-- Exponent suffix of a Python float literal: empty, or `e`/`E`, an optional
sign and at least one digit, consuming the whole rest.  Returns the factor. -/
def takeExponent : List Char → Option ℚ
  | [] => some 1
  | c :: rest =>
    if c = 'e' || c = 'E' then
      let signed : ℤ × List Char :=
        match rest with
        | '+' :: t => (1, t)
        | '-' :: t => (-1, t)
        | t => (1, t)
      let p := signed.2.span Char.isDigit
      if p.1.isEmpty || !p.2.isEmpty then none
      else some ((10 : ℚ) ^ (signed.1 * (digitsToNat p.1 : ℤ)))
    else none

/-- Model of Python's `float()` builtin on a character list: strip whitespace,
optional sign, mantissa, optional exponent; `none` models `ValueError`. -/
def pyFloatChars (cs0 : List Char) : Option ℚ :=
  let cs := pyStripChars cs0
  let sg := takeSign cs
  match takeMantissa sg.2 with
  | none => none
  | some (m, rest) =>
    match takeExponent rest with
    | none => none
    | some e => some (sg.1 * m * e)

/-- Model of Python's `float()` on a string. -/
def pyFloat (s : String) : Option ℚ :=
  pyFloatChars s.data

/-- Matcher for the number group of `UNIT_PATTERN` in `build_dataset.py`,
the regex group `([+-]?\d*\.?\d+)`: optional sign, digits, optional dot that
must be followed by at least one digit.  Returns the value and the rest. -/
def takeUnitNumber (cs : List Char) : Option (ℚ × List Char) :=
  let sg := takeSign cs
  let p1 := sg.2.span Char.isDigit
  match p1.2 with
  | c :: r2 =>
    if c = '.' then
      let p2 := r2.span Char.isDigit
      if p2.1.isEmpty then none
      else some (sg.1 * ((digitsToNat p1.1 : ℚ) + (digitsToNat p2.1 : ℚ) / (10 ^ p2.1.length)),
        p2.2)
    else if p1.1.isEmpty then none else some (sg.1 * (digitsToNat p1.1 : ℚ), p1.2)
  | [] => if p1.1.isEmpty then none else some (sg.1 * (digitsToNat p1.1 : ℚ), p1.2)

/-- Matcher for `UNIT_PATTERN = ^\s*([+-]?\d*\.?\d+)\s*([KMBT]?)\s*$` of
`build_dataset.py`: number group, optional magnitude-suffix group, anchored at
both ends.  Returns the numeric value and the optional suffix letter. -/
def matchUnitPattern (cs0 : List Char) : Option (ℚ × Option Char) :=
  let cs := cs0.dropWhile isPySpace
  match takeUnitNumber cs with
  | none => none
  | some (q, rest) =>
    match rest.dropWhile isPySpace with
    | [] => some (q, none)
    | u :: r2 =>
      if (u = 'K' || u = 'M' || u = 'B' || u = 'T') && (r2.dropWhile isPySpace).isEmpty
      then some (q, some u) else none

/-- Magnitude multiplier applied by `parse_numeric` for a matched suffix. -/
def unitMultiplier : Option Char → ℚ
  | some 'K' => 1000
  | some 'M' => 1000000
  | some 'B' => 1000000000
  | some 'T' => 1000000000000
  | _ => 1

/-- Core of `parse_numeric` (`build_dataset.py`) on the text of the input:
strip; empty and `"-"` give no value; a trailing `%` recurses on the prefix
and divides by 100; otherwise try `UNIT_PATTERN` and apply the magnitude
suffix; otherwise fall back to a plain `float()`; if that fails too, raise
`ValueError` (modelled as `.error`).  The recursion through the `%` branch is
driven by a fuel counter so that the definition is structural; the fuel only
ever decreases alongside the input (`parseNumericFuel_congr` below shows any
fuel above the input length gives the same result), and `parseNumericChars`
supplies enough fuel, so the fuel-exhaustion branch is unreachable from it. -/
def parseNumericFuel : ℕ → List Char → Except String (Option ℚ)
  | 0, cs => .error ("Cannot parse numeric value from: " ++ String.mk cs)
  | fuel + 1, cs =>
    let s := pyStripChars cs
    if s = [] then .ok none
    else if s = ['-'] then .ok none
    else if s.getLast? = some '%' then
      match parseNumericFuel fuel s.dropLast with
      | .ok (some q) => .ok (some (q / 100))
      | .ok none => .ok none
      | .error e => .error e
    else
      match matchUnitPattern s with
      | some (q, u) => .ok (some (q * unitMultiplier u))
      | none =>
        match pyFloatChars s with
        | some q => .ok (some q)
        | none => .error ("Cannot parse numeric value from: " ++ String.mk cs)

/-- Entry point of the `parse_numeric` string branch. -/
def parseNumericChars (cs : List Char) : Except String (Option ℚ) :=
  parseNumericFuel (cs.length + 1) cs

/-- Input universe of `parse_numeric`: Python `None`, a `float` NaN, an
already numeric value, or a string. -/
inductive PyVal where
  | vnone
  | vnan
  | vnum (q : ℚ)
  | vstr (s : String)
deriving DecidableEq, Repr

/-- Embedding of `parse_numeric` from `build_dataset.py`.  `None` and NaN give
no value, numbers pass through, strings go to `parseNumericChars`. -/
def parse_numeric : PyVal → Except String (Option ℚ)
  | .vnone => .ok none
  | .vnan => .ok none
  | .vnum q => .ok (some q)
  | .vstr s => parseNumericChars s.data

/-- Comma removal performed by `s.replace(",", "")`. -/
def removeCommas (cs : List Char) : List Char :=
  cs.filter (fun c => c ≠ ',')

/-- Embedding of `parse_bing_number` from `make_sec_bing_dict.py`.  Empty
input and the dash placeholders give no value; a trailing `B`/`M`/`K` sets a
multiplier; the remaining text goes through `float()`, whose failure is
swallowed into no value.  Reading `s[-1]` of a string that became empty after
comma-stripping raises `IndexError` (modelled as `.error`). -/
def parse_bing_number (s : String) : Except String (Option ℚ) :=
  if s.data = [] then .ok none
  else
    let t := pyStripChars (removeCommas s.data)
    if t = ['-'] || t = ['—'] then .ok none
    else
      match t.getLast? with
      | none => .error "IndexError: string index out of range"
      | some c =>
        let numPart := if c = 'B' || c = 'M' || c = 'K' then t.dropLast else t
        let multiplier : ℚ :=
          if c = 'B' then 1000000000
          else if c = 'M' then 1000000
          else if c = 'K' then 1000
          else 1
        match pyFloatChars numPart with
        | some q => .ok (some (q * multiplier))
        | none => .ok none

/-- Embedding of `parse_sec_number` from `make_sec_bing_dict.py`: empty input
gives no value, otherwise comma-strip, whitespace-strip and `float()`, with
`ValueError` swallowed into no value.  This function never raises. -/
def parse_sec_number (s : String) : Option ℚ :=
  if s.data = [] then none
  else pyFloatChars (pyStripChars (removeCommas s.data))

/-! ### Calendar model (`calendar.monthrange`, `datetime.date`) -/

/-- A Python `datetime.date`. -/
structure PyDate where
  year : ℕ
  month : ℕ
  day : ℕ
deriving DecidableEq, Repr

/-- Gregorian leap-year rule of `calendar.isleap`. -/
def isLeapYear (y : ℕ) : Bool :=
  y % 4 = 0 && (y % 100 ≠ 0 || y % 400 = 0)

/-- Number of days in a month, as returned by `calendar.monthrange(y, m)[1]`. -/
def daysInMonth (y m : ℕ) : ℕ :=
  if m = 2 then (if isLeapYear y then 29 else 28)
  else if m = 4 || m = 6 || m = 9 || m = 11 then 30
  else 31

/-- Model of `date.fromisoformat` on the canonical `YYYY-MM-DD` form used by
XBRL documents; `none` models `ValueError`. -/
def isoDateChars : List Char → Option PyDate
  | [y1, y2, y3, y4, '-', m1, m2, '-', d1, d2] =>
    if y1.isDigit && y2.isDigit && y3.isDigit && y4.isDigit
        && m1.isDigit && m2.isDigit && d1.isDigit && d2.isDigit then
      let y := digitsToNat [y1, y2, y3, y4]
      let m := digitsToNat [m1, m2]
      let d := digitsToNat [d1, d2]
      if 1 ≤ y && 1 ≤ m && m ≤ 12 && 1 ≤ d && d ≤ daysInMonth y m then
        some ⟨y, m, d⟩
      else none
    else none
  | _ => none

/-! ### Vendor period labels (`parse_period_label`, `build_dataset.py`) -/

/-- Lower-cased month abbreviations recognised by `strptime`'s `%b` (which
matches the C-locale month abbreviation case-insensitively). -/
def MONTH_ABBREVS : List String :=
  ["jan", "feb", "mar", "apr", "may", "jun", "jul", "aug", "sep", "oct", "nov", "dec"]

/-- Month number (1-12) for a 3-letter abbreviation, case-insensitive;
`none` models the `ValueError` of `strptime`. -/
def monthFromAbbrev (cs : List Char) : Option ℕ :=
  (MONTH_ABBREVS.findIdx? (fun m => m.data == cs.map Char.toLower)).map (fun i => i + 1)

/-- Matcher for `PERIOD_PATTERN = ^([A-Za-z]{3}) (\d{4}) \(FQ(\d)\)$` of
`build_dataset.py`: three letters, a space, four digits, a space, then the
literal characters of `(FQ`, one digit and `)`.  Returns the month group's
characters, the year value and the quarter digit. -/
def matchPeriodChars : List Char → Option (List Char × ℕ × ℕ)
  | [m1, m2, m3, ' ', y1, y2, y3, y4, ' ', '(', 'F', 'Q', qd, ')'] =>
    if m1.isAlpha && m2.isAlpha && m3.isAlpha
        && y1.isDigit && y2.isDigit && y3.isDigit && y4.isDigit && qd.isDigit then
      some ([m1, m2, m3], digitsToNat [y1, y2, y3, y4], digitsToNat [qd])
    else none
  | _ => none

/-- Result record of `parse_period_label`. -/
structure PeriodMeta where
  fiscal_year : ℕ
  fiscal_quarter : ℕ
  period_end_date : PyDate
deriving DecidableEq, Repr

/-- Embedding of `parse_period_label` from `build_dataset.py`: strip the
label, match `PERIOD_PATTERN` (else raise), resolve the month abbreviation
with `strptime` (else raise), and use the last day of that month as the
period end date.  The final `calendar.monthrange(year, month)` /
`date(year, month, last_day)` calls sit outside the `try/except`, and the
`date` constructor requires `MINYEAR (1) <= year <= MAXYEAR (9999)`, so a
year outside that range raises a `ValueError` that propagates to the
caller. -/
def parse_period_label (label : String) : Except String PeriodMeta :=
  match matchPeriodChars (pyStripChars label.data) with
  | none => .error ("Unexpected period label format: " ++ label)
  | some (mcs, year, fq) =>
    match monthFromAbbrev mcs with
    | none => .error ("Unknown month in period label: " ++ label)
    | some month =>
      if 1 ≤ year ∧ year ≤ 9999 then .ok ⟨year, fq, ⟨year, month, daysInMonth year month⟩⟩
      else .error "ValueError: year is out of range"

/-! ### XBRL document model and consolidated-totals extractor
(`xbrl_company_totals_service.py`) -/

/-- One `<xbrli:context>` as parsed by `parse_contexts`. -/
structure ContextInfo where
  id : String
  start_date : Option PyDate := none
  end_date : Option PyDate := none
  instant : Option PyDate := none
  dims : List (String × String) := []
deriving DecidableEq, Repr

/-- One flattened XBRL fact as produced by the extractor (`FactRow`). -/
structure FactRow where
  ticker : String
  filing_date : PyDate
  context_id : String
  concept : String
  value : String
  period_start : Option PyDate
  period_end : Option PyDate
  instant : Option PyDate
deriving DecidableEq, Repr

/-- One XML element of the instance document, in `ElementTree` terms.  The
raw tag string has the form `\x7bnamespace-uri\x7dlocalname`; it is
represented here already split into the namespace URI and the local name
(`_split_tag` in the source).  `root.iter()` enumerates elements in document
order, which is how a document is represented below: as the list of its
elements in iteration order. -/
structure XmlElem where
  ns : Option String
  localName : String
  contextRef : Option String
  text : Option String
deriving DecidableEq, Repr

/-- Opening-brace character of a serialized `ElementTree` tag. -/
def lbrace : Char := Char.ofNat 123

/-- Closing-brace character of a serialized `ElementTree` tag. -/
def rbrace : Char := Char.ofNat 125

/-- Raw tag string of an element, as `ElementTree` stores it. -/
def tagChars (el : XmlElem) : List Char :=
  match el.ns with
  | some u => lbrace :: (u.data ++ rbrace :: el.localName.data)
  | none => el.localName.data

/-- Boolean substring test (Python's `in` on strings). -/
def listInfixB (sub : List Char) : List Char → Bool
  | [] => sub.isEmpty
  | c :: rest => sub.isPrefixOf (c :: rest) || listInfixB sub rest

/-- The `xbrldi` namespace URI (`XBRLDI_NS` in the source). -/
def XBRLDI_NS : String := "http://xbrl.org/2006/xbrldi"

/-- The namespace-alias table `NS_ALIASES` of the source. -/
def NS_ALIASES : List (String × String) :=
  [("http://fasb.org/us-gaap/2025", "us-gaap"),
   ("http://fasb.org/us-gaap/2024", "us-gaap"),
   ("http://xbrl.sec.gov/dei/2025", "dei"),
   ("http://xbrl.sec.gov/dei/2024", "dei"),
   ("http://xbrl.sec.gov/dei/2023", "dei"),
   ("http://xbrl.sec.gov/dei/2022", "dei"),
   ("http://xbrl.sec.gov/country/2025", "country"),
   ("http://xbrl.org/2006/xbrldi", "xbrldi"),
   ("http://www.xbrl.org/2003/instance", "xbrl")]

/-- Last `/`-separated path segment of a URI (`uri.split("/")[-1]`). -/
def lastPathSegment (uri : String) : String :=
  ((uri.splitOn "/").getLast?).getD ""

/-- Embedding of `_concept_name`: alias the namespace (falling back to the
URI's last path segment) and qualify the local name with it when nonempty. -/
def conceptName (el : XmlElem) : String :=
  match el.ns with
  | none => el.localName
  | some uri =>
    let pfx := (NS_ALIASES.lookup uri).getD (lastPathSegment uri)
    if pfx ≠ "" then pfx ++ ":" ++ el.localName else el.localName

/-- Embedding of `get_document_period_end`: the first element (in document
order) whose local name is `DocumentPeriodEndDate`, with nonempty stripped
text that parses as an ISO date; elements failing either check are passed
over, absence gives `none`. -/
def get_document_period_end (root : List XmlElem) : Option PyDate :=
  root.findSome? fun el =>
    if el.localName = "DocumentPeriodEndDate" then
      let txt := pyStripChars (el.text.getD "").data
      if txt = [] then none else isoDateChars txt
    else none

/-- Embedding of `is_company_total_context`: consolidated totals are the
contexts with an empty dimension map. -/
def is_company_total_context (ctx : ContextInfo) : Bool :=
  ctx.dims.isEmpty

/-- Per-element body of the extractor loop: all the `continue` filters of
`extract_company_totals_for_main_period`, in source order, and the `FactRow`
construction for elements that pass them. -/
def keepRow (contexts : List (String × ContextInfo)) (docEnd : Option PyDate)
    (ticker : String) (filing_date : PyDate) (el : XmlElem) : Option FactRow :=
  match el.contextRef with
  | none => none
  | some ctxId =>
    if ctxId = "" then none
    else if listInfixB XBRLDI_NS.data (tagChars el) then none
    else
      let txt := pyStripChars (el.text.getD "").data
      if txt = [] then none
      else
        match contexts.lookup ctxId with
        | none => none
        | some ctx =>
          if !is_company_total_context ctx then none
          else
            let dateOk : Bool :=
              match docEnd with
              | none => true
              | some d => ((ctx.end_date).or ctx.instant) = some d
            if dateOk then
              some ⟨ticker, filing_date, ctx.id, conceptName el, String.mk txt,
                    ctx.start_date, ctx.end_date, ctx.instant⟩
            else none

/-- The extractor loop: collect rows in document order; after appending a
row, stop as soon as the number of collected rows reaches `limit` (the
source appends first and then tests `len(rows) >= limit`). -/
def extractLoop (contexts : List (String × ContextInfo)) (docEnd : Option PyDate)
    (ticker : String) (filing_date : PyDate) (limit : ℕ) :
    List XmlElem → List FactRow
  | [] => []
  | el :: rest =>
    match keepRow contexts docEnd ticker filing_date el with
    | none => extractLoop contexts docEnd ticker filing_date limit rest
    | some row =>
      if limit ≤ 1 then [row]
      else row :: extractLoop contexts docEnd ticker filing_date (limit - 1) rest

/-- Embedding of `extract_company_totals_for_main_period`. -/
def extract_company_totals_for_main_period (root : List XmlElem)
    (contexts : List (String × ContextInfo)) (ticker : String)
    (filing_date : PyDate) (limit : ℕ) : List FactRow :=
  extractLoop contexts (get_document_period_end root) ticker filing_date limit root

/-! ### Cross-source matcher (`find_close_matches_stepup`) -/

/-- Python `int()` on a float: truncation toward zero. -/
def pyInt (q : ℚ) : ℤ :=
  if q < 0 then ⌈q⌉ else ⌊q⌋

/-- The vendor metrics matching a SEC value at one relative tolerance: skip
zero vendor values, keep `(name, value, rel_err)` whenever
`|value - sec| / |sec| ≤ tol`, in table order. -/
def relMatchesAt (sec : ℚ) (bing : List (String × ℚ)) (tol : ℚ) :
    List (String × ℚ × ℚ) :=
  bing.filterMap fun p =>
    if p.2 = 0 then none
    else
      let relErr := |p.2 - sec| / |sec|
      if relErr ≤ tol then some (p.1, p.2, relErr) else none

/-- Ordering of matches by relative error (`key=lambda x: x[2]`). -/
def errLe (a b : String × ℚ × ℚ) : Prop :=
  a.2.2 ≤ b.2.2

instance : DecidableRel errLe := fun a b => inferInstanceAs (Decidable (a.2.2 ≤ b.2.2))

instance : IsTotal (String × ℚ × ℚ) errLe := ⟨fun a b => le_total a.2.2 b.2.2⟩

instance : IsTrans (String × ℚ × ℚ) errLe := ⟨fun _ _ _ h1 h2 => le_trans h1 h2⟩

/-- The tolerance ladder `[i * step for i in range(1, int(max_tol/step) + 1)]`. -/
def tolerancesOf (max_tol step : ℚ) : List ℚ :=
  (List.range' 1 (pyInt (max_tol / step)).toNat).map (fun i : ℕ => (i : ℚ) * step)

/-- The `for tol in tolerances` loop: at the first tolerance with a nonempty
match list, return it sorted by ascending relative error (Python's stable
`list.sort`); otherwise fall through to the next tolerance, and to `[]` at
the end of the ladder. -/
def stepupLoop (sec : ℚ) (bing : List (String × ℚ)) : List ℚ → List (String × ℚ × ℚ)
  | [] => []
  | tol :: rest =>
    let m := relMatchesAt sec bing tol
    if m = [] then stepupLoop sec bing rest
    else List.insertionSort errLe m

/-- Embedding of `find_close_matches_stepup` from `make_sec_bing_dict.py`. -/
def find_close_matches_stepup (sec_value : ℚ) (bing_values : List (String × ℚ))
    (max_tol step : ℚ) : List (String × ℚ × ℚ) :=
  if sec_value = 0 then []
  else stepupLoop sec_value bing_values (tolerancesOf max_tol step)

/-! ### Evidence store and batch loop (`main`, `compare_sec_with_bing`) -/

/-- The evidence store `ticker -> bing_metric -> sec_concept -> [rel_err]`,
as an insertion-ordered dict of dicts of dicts. -/
abbrev Evidence := List (String × List (String × List (String × List ℚ)))

/-- Python dict write `d[k] = f(d.setdefault(k, dflt))`-style update: rewrite
the value in place when the key exists, append the new binding otherwise. -/
def updEntry {α : Type} (l : List (String × α)) (k : String) (dflt : α) (f : α → α) :
    List (String × α) :=
  if (l.lookup k).isSome then l.map (fun p => if p.1 = k then (k, f p.2) else p)
  else l ++ [(k, f dflt)]

/-- One match observation folded into the evidence store by
`compare_sec_with_bing` (`evidence[ticker][mname][concept].append(err)`). -/
structure MatchObs where
  ticker : String
  metric : String
  concept : String
  err : ℚ
deriving DecidableEq, Repr

/-- Record one observation in the evidence store (the `setdefault` chain of
`compare_sec_with_bing`). -/
def recordObs (ev : Evidence) (o : MatchObs) : Evidence :=
  updEntry ev o.ticker [] fun tm =>
    updEntry tm o.metric [] fun mm =>
      updEntry mm o.concept [] fun errs => errs ++ [o.err]

/-- One iteration of the filing loop in `main`: per-filing processing
(fetch, parse, extract, match — everything inside the `try` block up to the
match list of `compare_sec_with_bing`) is abstracted as a function returning
either the filing's match observations or the exception it raised; on
success the observations are folded into the evidence store, on failure the
`except` branch leaves the store untouched and continues. -/
def batchStep {F : Type} (proc : F → Except String (List MatchObs))
    (ev : Evidence) (filing : F) : Evidence :=
  match proc filing with
  | .ok obs => obs.foldl recordObs ev
  | .error _ => ev

/-- The filing loop of `main`: fold all filings over `batchStep`, starting
from the empty evidence store. -/
def runBatch {F : Type} (proc : F → Except String (List MatchObs))
    (filings : List F) : Evidence :=
  filings.foldl (batchStep proc) []

/-! ### Evidence aggregator (`build_company_sec_mapping`) -/

/-- Sort key order `(-hits, mean_err)` of the aggregator: more hits first,
then lower mean error. -/
def statPrefLe (a b : String × ℕ × ℚ) : Prop :=
  b.2.1 < a.2.1 ∨ (a.2.1 = b.2.1 ∧ a.2.2 ≤ b.2.2)

instance : DecidableRel statPrefLe :=
  fun a b => inferInstanceAs (Decidable (_ ∨ _ ∧ _))

instance : IsTotal (String × ℕ × ℚ) statPrefLe := by
  constructor
  intro a b
  rcases Nat.lt_trichotomy a.2.1 b.2.1 with h | h | h
  · exact Or.inr (Or.inl h)
  · rcases le_total a.2.2 b.2.2 with h2 | h2
    · exact Or.inl (Or.inr ⟨h, h2⟩)
    · exact Or.inr (Or.inr ⟨h.symm, h2⟩)
  · exact Or.inl (Or.inl h)

instance : IsTrans (String × ℕ × ℚ) statPrefLe := by
  constructor
  intro a b c hab hbc
  rcases hab with h1 | ⟨e1, l1⟩
  · rcases hbc with h2 | ⟨e2, _⟩
    · exact Or.inl (h2.trans h1)
    · exact Or.inl (e2 ▸ h1)
  · rcases hbc with h2 | ⟨e2, l2⟩
    · exact Or.inl (e1 ▸ h2)
    · exact Or.inr ⟨e1.trans e2, l1.trans l2⟩

/-- Per-candidate statistics of the aggregator: skip concepts with an empty
observation list, and record `(concept, hits, mean_err)` for the rest. -/
def candidateStats (cands : List (String × List ℚ)) : List (String × ℕ × ℚ) :=
  cands.filterMap fun p =>
    if p.2 = [] then none
    else some (p.1, p.2.length, p.2.sum / (p.2.length : ℚ))

/-- The aggregator's preference test `hits >= min_hits and mean_err <= max_mean_err`. -/
def isPreferredStat (min_hits : ℕ) (max_mean_err : ℚ) (s : String × ℕ × ℚ) : Bool :=
  min_hits ≤ s.2.1 && s.2.2 ≤ max_mean_err

/-- Concept choice for one `(ticker, bing_metric)` pair: sort the candidate
stats by `(-hits, mean_err)` (Python's stable sort), take the first
preferred candidate if any, else the first candidate overall; `none` only
when every candidate list was empty (the `if not stats: continue`). -/
def chooseConcept (min_hits : ℕ) (max_mean_err : ℚ)
    (cands : List (String × List ℚ)) : Option String :=
  let stats := candidateStats cands
  if stats = [] then none
  else
    let sorted := List.insertionSort statPrefLe stats
    match (sorted.filter (isPreferredStat min_hits max_mean_err)).head? with
    | some p => some p.1
    | none => sorted.head?.map (fun s => s.1)

/-- Embedding of `build_company_sec_mapping` from `make_sec_bing_dict.py`. -/
def build_company_sec_mapping (evidence : Evidence) (min_hits : ℕ)
    (max_mean_err : ℚ) : List (String × List (String × String)) :=
  evidence.filterMap fun tp =>
    let tmap := tp.2.filterMap fun mp =>
      (chooseConcept min_hits max_mean_err mp.2).map (fun c => (mp.1, c))
    if tmap = [] then none else some (tp.1, tmap)

/-! ### Vendor metric table merge (`get_bing_all_metrics`) -/

/-- JSON-ish values of the vendor financials document: strings, arrays of
period labels, nested objects (insertion-ordered dicts), and anything else
(numbers, null, …) that the merge skips. -/
inductive BVal where
  | vs (v : String)
  | arr (vs : List String)
  | obj (fields : List (String × BVal))
  | other

/-- The three statement groups merged by `get_bing_all_metrics`. -/
def STMT_KEYS : List String := ["income_statement", "balance_sheet", "cash_flow"]

/-- Fallback of `get_bing_periods`: first statement group that is a dict
holding a `periods` list. -/
def periodsFromStmts (bing : List (String × BVal)) : List String → List String
  | [] => []
  | k :: rest =>
    match bing.lookup k with
    | some (.obj st) =>
      match st.lookup "periods" with
      | some (.arr vs) => vs
      | _ => periodsFromStmts bing rest
    | _ => periodsFromStmts bing rest

/-- Embedding of `get_bing_periods`: top-level `periods` list, else the
statement-group fallback, else empty. -/
def get_bing_periods (bing : List (String × BVal)) : List String :=
  match bing.lookup "periods" with
  | some (.arr vs) => vs
  | _ => periodsFromStmts bing STMT_KEYS

/-- A statement group's metric source: its `metrics` sub-dict when present,
else the group dict itself. -/
def getStmtSource (st : List (String × BVal)) : List (String × BVal) :=
  match st.lookup "metrics" with
  | some (.obj m) => m
  | _ => st

/-- The metric entries one statement group contributes to the merge scan:
empty when the group is absent or not a dict (the loop's `continue`), its
metric source otherwise. -/
def stmtEntries (bing : List (String × BVal)) (key : String) : List (String × BVal) :=
  match bing.lookup key with
  | some (.obj st) => getStmtSource st
  | _ => []

/-- Python `name in merged` membership test on the merged dict. -/
def keyMem {α : Type} (merged : List (String × α)) (k : String) : Bool :=
  merged.any fun p => p.1 == k

/-- Decimal string representation of a natural number (Python `str(n)`). -/
def natStr (n : ℕ) : String :=
  if n = 0 then "0"
  else String.mk (((Nat.digits 10 n).reverse).map (fun d => Char.ofNat (48 + d)))

/-- Bounded search for the suffix loop `while f"..." in merged: suffix_n += 1`.
The source's loop is unbounded; it terminates because the merged dict is
finite and the candidate keys are pairwise distinct, so `merged.length + 1`
probes always reach a free key (`leastFreshSuffix_free` below makes this
exact); within that bound this function computes the same least free index. -/
def freshSuffixFuel (taken : ℕ → Bool) : ℕ → ℕ → ℕ
  | 0, n => n
  | fuel + 1, n => if taken n then freshSuffixFuel taken fuel (n + 1) else n

/-- The first free numeric suffix (starting at 2) for a collided metric key. -/
def leastFreshSuffix (merged : List (String × List (String × BVal))) (qual : String) : ℕ :=
  freshSuffixFuel (fun n => keyMem merged (qual ++ " #" ++ natStr n)) (merged.length + 1) 2

/-- Final key chosen for a raw metric name: the raw name when free, else the
statement-qualified name, else the qualified name with the first free numeric
suffix. -/
def chooseName (merged : List (String × List (String × BVal)))
    (raw stmtKey : String) : String :=
  if !keyMem merged raw then raw
  else
    let qual := raw ++ " (" ++ stmtKey ++ ")"
    if !keyMem merged qual then qual
    else qual ++ " #" ++ natStr (leastFreshSuffix merged qual)

/-- One inner-loop iteration of the merge: dict-valued metrics are appended
under their chosen key, anything else (`metadata fields etc.`) is skipped. -/
def mergeStep (stmtKey : String) (merged : List (String × List (String × BVal)))
    (p : String × BVal) : List (String × List (String × BVal)) :=
  match p.2 with
  | .obj pv => merged ++ [(chooseName merged p.1 stmtKey, pv)]
  | _ => merged

/-- Embedding of `get_bing_all_metrics`: the periods list and the merged
metric table over the three statement groups in order. -/
def get_bing_all_metrics (bing : List (String × BVal)) :
    List String × List (String × List (String × BVal)) :=
  let merged := STMT_KEYS.foldl (fun merged key =>
    (stmtEntries bing key).foldl (mergeStep key) merged) []
  (get_bing_periods bing, merged)

/-! ### SEC numeric map (`build_sec_numeric_map`) -/

/-- A fact row as consumed by `build_sec_numeric_map`: the `concept` and
`value` fields already passed through `str()`. -/
structure SecRow where
  concept : String
  value : String
deriving DecidableEq, Repr

/-- Embedding of `build_sec_numeric_map`: skip rows with an empty stripped
concept or an unparsable value, and bind each surviving concept to its
value with dict-assignment semantics (a later row overwrites an earlier
binding of the same concept in place). -/
def build_sec_numeric_map (rows : List SecRow) : List (String × ℚ) :=
  rows.foldl (fun out r =>
    let concept := pyStrip r.concept
    if concept = "" then out
    else
      match parse_sec_number (pyStrip r.value) with
      | none => out
      | some v => updEntry out concept 0 (fun _ => v)) []

/-! ### Derived notions used by the theorems -/

/-- Success test on a modelled Python computation. -/
def exceptOk {ε α : Type} : Except ε α → Bool
  | .ok _ => true
  | .error _ => false

/-- Agreement of two parse results up to the text of the raised error: equal
successful values, or failure on both sides. -/
def okAgree : Except String (Option ℚ) → Except String (Option ℚ) → Prop
  | .ok a, .ok b => a = b
  | .error _, .error _ => True
  | _, _ => False

/-- All dict-valued `(raw_name, stmt_key, per_period_values)` contributions
scanned by the merge loops of `get_bing_all_metrics`, in scan order. -/
def rawEntries (bing : List (String × BVal)) :
    List (String × String × List (String × BVal)) :=
  (STMT_KEYS.map (fun k => (stmtEntries bing k).filterMap (fun p =>
    match p.2 with
    | .obj pv => some (p.1, k, pv)
    | _ => none))).flatten

/-- The relation between a raw metric name and the merged key chosen for it:
the raw name itself, the statement-qualified name, or the qualified name with
a numeric suffix of at least 2. -/
def finalKeyRel (raw stmtKey k : String) : Prop :=
  k = raw ∨ k = raw ++ " (" ++ stmtKey ++ ")"
    ∨ ∃ n, 2 ≤ n ∧ k = raw ++ " (" ++ stmtKey ++ ")" ++ " #" ++ natStr n

/-- The single-entry append step of the merge, over pre-extracted
contributions (proved below to agree with the nested loops of
`get_bing_all_metrics`). -/
def mergeContrib (merged : List (String × List (String × BVal))) :
    List (String × String × List (String × BVal)) → List (String × List (String × BVal))
  | [] => merged
  | (raw, key, pv) :: rest => mergeContrib (merged ++ [(chooseName merged raw key, pv)]) rest

/-! ## Helper lemmas on association lists and dict updates -/

theorem getLast?_cons_eq {α : Type} (a : α) (l : List α) :
    (a :: l).getLast? = some ((l.getLast?).getD a) := by
  induction l generalizing a with
  | nil => rfl
  | cons b t ih =>
    rw [List.getLast?_cons_cons, ih b]
    cases h : t.getLast? <;> simp [h]

theorem lookup_append_single_self {α : Type} {l : List (String × α)} {k : String} (v : α)
    (h : l.lookup k = none) : (l ++ [(k, v)]).lookup k = some v := by
  induction l with
  | nil => simp [List.lookup]
  | cons p t ih =>
    simp only [List.lookup, List.cons_append] at h ⊢
    cases hp : (k == p.1) with
    | true => simp [hp] at h
    | false =>
      simp only [hp] at h ⊢
      exact ih h

theorem lookup_append_single_other {α : Type} {l : List (String × α)} {k c : String} (v : α)
    (h : c ≠ k) : (l ++ [(k, v)]).lookup c = l.lookup c := by
  induction l with
  | nil =>
    have hck : (c == k) = false := by
      rw [beq_eq_false_iff_ne]
      exact h
    simp [List.lookup, hck]
  | cons p t ih =>
    simp only [List.lookup, List.cons_append]
    cases hp : (c == p.1) <;> simp [hp, ih]

theorem lookup_map_upd_self {α : Type} (l : List (String × α)) (k : String) (f : α → α) :
    (l.map (fun p => if p.1 = k then (k, f p.2) else p)).lookup k = (l.lookup k).map f := by
  induction l with
  | nil => rfl
  | cons p t ih =>
    by_cases hp : p.1 = k
    · subst hp
      simp only [List.map_cons, if_pos rfl]
      simp [List.lookup, ih]
    · have hkp : (k == p.1) = false := by
        rw [beq_eq_false_iff_ne]
        exact fun e => hp e.symm
      simp only [List.map_cons, if_neg hp]
      simp [List.lookup, hkp, ih]

theorem lookup_map_upd_other {α : Type} (l : List (String × α)) (k c : String) (f : α → α)
    (h : c ≠ k) : (l.map (fun p => if p.1 = k then (k, f p.2) else p)).lookup c = l.lookup c := by
  induction l with
  | nil => rfl
  | cons p t ih =>
    by_cases hp : p.1 = k
    · have hck : (c == k) = false := by
        rw [beq_eq_false_iff_ne]
        exact h
      have hcp : (c == p.1) = false := by
        rw [beq_eq_false_iff_ne]
        rw [hp]
        exact h
      simp only [List.map_cons, if_pos hp]
      simp [List.lookup, hck, hcp, ih]
    · simp only [List.map_cons]
      rw [if_neg hp]
      simp only [List.lookup]
      cases hcp : (c == p.1) <;> simp [hcp, ih]

theorem lookup_updEntry_self {α : Type} (l : List (String × α)) (k : String) (d : α) (f : α → α) :
    (updEntry l k d f).lookup k = some (f (((l.lookup k)).getD d)) := by
  unfold updEntry
  cases h : l.lookup k with
  | none => simp [h, lookup_append_single_self _ h]
  | some v => simp [h, lookup_map_upd_self]

theorem lookup_updEntry_other {α : Type} (l : List (String × α)) (k c : String) (d : α)
    (f : α → α) (h : c ≠ k) : (updEntry l k d f).lookup c = l.lookup c := by
  unfold updEntry
  cases hl : (l.lookup k).isSome <;>
    simp [hl, lookup_map_upd_other _ _ _ _ h, lookup_append_single_other _ h]

theorem keys_map_upd {α : Type} (l : List (String × α)) (k : String) (f : α → α) :
    (l.map (fun p => if p.1 = k then (k, f p.2) else p)).map Prod.fst = l.map Prod.fst := by
  induction l with
  | nil => rfl
  | cons p t ih =>
    by_cases hp : p.1 = k <;> simp [hp, ih]

theorem lookup_eq_none_iff {α : Type} (l : List (String × α)) (k : String) :
    l.lookup k = none ↔ k ∉ l.map Prod.fst := by
  induction l with
  | nil => simp [List.lookup]
  | cons p t ih =>
    simp only [List.lookup, List.map_cons, List.mem_cons]
    cases hp : (k == p.1) with
    | true =>
      have : k = p.1 := by simpa using hp
      simp [this]
    | false =>
      have : ¬ k = p.1 := by simpa using hp
      simp [this, ih]

theorem keys_nodup_updEntry {α : Type} (l : List (String × α)) (k : String) (d : α) (f : α → α)
    (h : (l.map Prod.fst).Nodup) : ((updEntry l k d f).map Prod.fst).Nodup := by
  unfold updEntry
  by_cases hl : (l.lookup k).isSome = true
  · rw [if_pos hl, keys_map_upd]
    exact h
  · rw [if_neg hl]
    have hnone : l.lookup k = none := by
      cases hx : l.lookup k
      · rfl
      · rw [hx] at hl
        simp at hl
    have hk : k ∉ l.map Prod.fst := (lookup_eq_none_iff l k).mp hnone
    rw [List.map_append]
    refine List.Nodup.append h (by simp) ?_
    intro a ha hb
    simp at hb
    subst hb
    exact hk ha

/-! ## C10 — SEC concept-to-number map -/

theorem build_sec_map_go (rows : List SecRow) :
    ∀ (out : List (String × ℚ)) (c : String),
      (rows.foldl (fun out r =>
        let concept := pyStrip r.concept
        if concept = "" then out
        else
          match parse_sec_number (pyStrip r.value) with
          | none => out
          | some v => updEntry out concept 0 (fun _ => v)) out).lookup c
      = Option.or
          ((rows.filterMap (fun r =>
            if pyStrip r.concept = c then
              (if c = "" then none else parse_sec_number (pyStrip r.value))
            else none)).getLast?)
          (out.lookup c) := by
  induction rows with
  | nil => intro out c; simp
  | cons r rest ih =>
    intro out c
    simp only [List.foldl_cons, List.filterMap_cons]
    by_cases hkeep : pyStrip r.concept ≠ "" ∧ pyStrip r.concept = c
        ∧ (parse_sec_number (pyStrip r.value)).isSome
    · obtain ⟨hc0, hcc, hv⟩ := hkeep
      obtain ⟨v, hv⟩ := Option.isSome_iff_exists.mp hv
      have hc : ¬ c = "" := fun e => hc0 (e ▸ hcc)
      have hsv : (if pyStrip r.concept = c then
          (if c = "" then none else parse_sec_number (pyStrip r.value))
          else none) = some v := by
        rw [if_pos hcc, if_neg hc, hv]
      have hstep : (let concept := pyStrip r.concept
          if concept = "" then out
          else
            match parse_sec_number (pyStrip r.value) with
            | none => out
            | some v => updEntry out concept 0 (fun _ => v))
          = updEntry out (pyStrip r.concept) 0 (fun _ => v) := by
        simp only [if_neg hc0, hv]
      rw [hsv, hstep, ih]
      rw [hcc, lookup_updEntry_self]
      rw [getLast?_cons_eq]
      cases hrest : (rest.filterMap (fun r =>
        if pyStrip r.concept = c then
          (if c = "" then none else parse_sec_number (pyStrip r.value))
        else none)).getLast? <;> simp [hrest, Option.or]
    · have hsv : (if pyStrip r.concept = c then
          (if c = "" then none else parse_sec_number (pyStrip r.value))
          else none) = none := by
        by_cases hcc : pyStrip r.concept = c
        · rw [if_pos hcc]
          by_cases hce : c = ""
          · rw [if_pos hce]
          · rw [if_neg hce]
            cases hv : parse_sec_number (pyStrip r.value) with
            | none => rfl
            | some v =>
              exact absurd ⟨fun e => hce (hcc ▸ e), hcc, by rw [hv]; rfl⟩ hkeep
        · rw [if_neg hcc]
      have hstep : (let concept := pyStrip r.concept
          if concept = "" then out
          else
            match parse_sec_number (pyStrip r.value) with
            | none => out
            | some v => updEntry out concept 0 (fun _ => v))
          = out ∨ ∃ k v, k ≠ c ∧ (let concept := pyStrip r.concept
          if concept = "" then out
          else
            match parse_sec_number (pyStrip r.value) with
            | none => out
            | some v => updEntry out concept 0 (fun _ => v))
          = updEntry out k 0 (fun _ => v) := by
        by_cases hc0 : pyStrip r.concept = ""
        · exact Or.inl (by simp only [hc0, if_pos])
        · cases hv : parse_sec_number (pyStrip r.value) with
          | none => exact Or.inl (by simp only [if_neg hc0, hv])
          | some v =>
            refine Or.inr ⟨pyStrip r.concept, v, ?_, by simp only [if_neg hc0, hv]⟩
            intro hcc
            exact hkeep ⟨hc0, hcc, by rw [hv]; rfl⟩
      rw [hsv]
      rcases hstep with hstep | ⟨k, v, hk, hstep⟩
      · rw [hstep, ih]
      · rw [hstep, ih]
        rw [lookup_updEntry_other _ _ _ _ _ (fun e => hk e.symm)]

/-- Claim C10: the SEC concept-to-number map binds each concept name at most
once (its key list has no duplicates); rows with an empty stripped concept or
an unparsable value are dropped; and looking up any concept yields exactly the
value of the last surviving row with that concept, so earlier duplicate
observations never participate in matching. -/
theorem sec_numeric_map_last_wins (rows : List SecRow) :
    ((build_sec_numeric_map rows).map Prod.fst).Nodup ∧
    ∀ c : String,
      (build_sec_numeric_map rows).lookup c =
        (rows.filterMap (fun r =>
          if pyStrip r.concept = c then
            (if c = "" then none else parse_sec_number (pyStrip r.value))
          else none)).getLast? := by
  constructor
  · have hgen : ∀ (rs : List SecRow) (out : List (String × ℚ)),
        (out.map Prod.fst).Nodup →
        ((rs.foldl (fun out r =>
          let concept := pyStrip r.concept
          if concept = "" then out
          else
            match parse_sec_number (pyStrip r.value) with
            | none => out
            | some v => updEntry out concept 0 (fun _ => v)) out).map Prod.fst).Nodup := by
      intro rs
      induction rs with
      | nil => intro out h; simpa using h
      | cons r rest ih =>
        intro out h
        simp only [List.foldl_cons]
        by_cases hc0 : pyStrip r.concept = ""
        · simp only [hc0, if_pos]
          exact ih out h
        · cases hv : parse_sec_number (pyStrip r.value) with
          | none =>
            simp only [if_neg hc0, hv]
            exact ih out h
          | some v =>
            simp only [if_neg hc0, hv]
            exact ih _ (keys_nodup_updEntry _ _ _ _ h)
    exact hgen rows [] (by simp)
  · intro c
    have h := build_sec_map_go rows [] c
    unfold build_sec_numeric_map
    rw [h]
    cases hx : (rows.filterMap (fun r =>
      if pyStrip r.concept = c then
        (if c = "" then none else parse_sec_number (pyStrip r.value))
      else none)).getLast? <;> simp [List.lookup, Option.or]

/-! ## C3 — consolidated-totals extractor -/

theorem extractLoop_eq_take (contexts : List (String × ContextInfo)) (docEnd : Option PyDate)
    (ticker : String) (fd : PyDate) :
    ∀ (els : List XmlElem) (limit : ℕ), 1 ≤ limit →
      extractLoop contexts docEnd ticker fd limit els
        = (els.filterMap (keepRow contexts docEnd ticker fd)).take limit := by
  intro els
  induction els with
  | nil =>
    intro limit _
    simp [extractLoop]
  | cons el rest ih =>
    intro limit hlim
    simp only [extractLoop, List.filterMap_cons]
    cases hk : keepRow contexts docEnd ticker fd el with
    | none =>
      dsimp only
      exact ih limit hlim
    | some row =>
      dsimp only
      by_cases h1 : limit ≤ 1
      · have h2 : limit = 1 := le_antisymm h1 hlim
        subst h2
        simp
      · have h2 : 1 ≤ limit - 1 := by omega
        have h3 : limit = (limit - 1) + 1 := by omega
        rw [if_neg h1, ih (limit - 1) h2, h3, List.take_succ_cons]
        simp only [Nat.add_sub_cancel]

theorem keepRow_isSome_iff (contexts : List (String × ContextInfo)) (docEnd : Option PyDate)
    (t : String) (fd : PyDate) (el : XmlElem) :
    (keepRow contexts docEnd t fd el).isSome = true ↔
      ((∃ cid ctx, el.contextRef = some cid ∧ cid ≠ "" ∧ contexts.lookup cid = some ctx ∧
          ctx.dims = [] ∧ (∀ d, docEnd = some d → ((ctx.end_date).or ctx.instant) = some d)) ∧
        pyStripChars ((el.text.getD "").data) ≠ [] ∧
        listInfixB XBRLDI_NS.data (tagChars el) = false) := by
  unfold keepRow
  cases hcr : el.contextRef with
  | none => simp
  | some cid =>
    dsimp only
    by_cases h0 : cid = ""
    · subst h0
      simp
    · rw [if_neg h0]
      by_cases hx : listInfixB XBRLDI_NS.data (tagChars el) = true
      · simp only [if_pos hx]
        simp [hx]
      · rw [if_neg hx]
        have hx' : listInfixB XBRLDI_NS.data (tagChars el) = false :=
          Bool.eq_false_iff.mpr hx
        by_cases ht : pyStripChars ((el.text.getD "").data) = []
        · simp [ht, hx']
        · rw [if_neg ht]
          cases hl : contexts.lookup cid with
          | none => simp [hx', ht, h0, hl]
          | some ctx =>
            dsimp only
            by_cases hd : ctx.dims = []
            · have htot : is_company_total_context ctx = true := by
                simp [is_company_total_context, hd]
              rw [htot]
              simp only [Bool.not_true, if_neg (by simp : ¬ (false = true))]
              cases docEnd with
              | none =>
                simp [hx', ht, h0, hl, hd]
              | some d =>
                by_cases he : ((ctx.end_date).or ctx.instant) = some d
                · simp [he, hx', ht, h0, hl, hd]
                  cases hed : ctx.end_date with
                  | some x =>
                    rw [hed] at he
                    exact Or.inl he
                  | none =>
                    rw [hed] at he
                    exact Or.inr ⟨rfl, he⟩
                · simp [he, hx', ht, h0, hl, hd]
                  cases hed : ctx.end_date with
                  | some x =>
                    rw [hed] at he
                    exact ⟨he, fun h => Option.noConfusion h⟩
                  | none =>
                    rw [hed] at he
                    exact ⟨fun h => Option.noConfusion h, fun _ => he⟩
            · have htot : is_company_total_context ctx = false := by
                simp [is_company_total_context, hd]
              rw [htot]
              simp [hx', ht, h0, hl, hd]

/-- Claim C3 as amended: for every parsed document, context map and limit of
at least 1, the extractor output is exactly the document-order list of
elements passing the keep filter, truncated to `limit` (so it has at most
`limit` rows); and an element passes the keep filter iff it carries a
nonempty context reference resolving to a known context, that context has an
empty dimension map, the context's end-or-instant date equals the document
period end date whenever the latter is known, the element's stripped text is
nonempty, and the element is not a dimensional-membership (`xbrldi`)
element. -/
theorem extractor_filters_and_limit (root : List XmlElem)
    (contexts : List (String × ContextInfo)) (ticker : String) (filing_date : PyDate)
    (limit : ℕ) (hlim : 1 ≤ limit) :
    extract_company_totals_for_main_period root contexts ticker filing_date limit
      = (root.filterMap
          (keepRow contexts (get_document_period_end root) ticker filing_date)).take limit
    ∧ (∀ el : XmlElem,
        (keepRow contexts (get_document_period_end root) ticker filing_date el).isSome = true ↔
          ((∃ cid ctx, el.contextRef = some cid ∧ cid ≠ "" ∧ contexts.lookup cid = some ctx ∧
              ctx.dims = [] ∧
              (∀ d, get_document_period_end root = some d →
                ((ctx.end_date).or ctx.instant) = some d)) ∧
            pyStripChars ((el.text.getD "").data) ≠ [] ∧
            listInfixB XBRLDI_NS.data (tagChars el) = false))
    ∧ (extract_company_totals_for_main_period root contexts ticker filing_date limit).length
        ≤ limit := by
  have h1 := extractLoop_eq_take contexts (get_document_period_end root) ticker filing_date
    root limit hlim
  refine ⟨h1, fun el => keepRow_isSome_iff _ _ _ _ el, ?_⟩
  unfold extract_company_totals_for_main_period
  rw [h1]
  exact (List.length_take _ _).le.trans (min_le_left _ _)

/-- Witness for `extractor_filters_and_limit` at a concrete one-element
document and `limit = 2`. -/
theorem extractor_filters_and_limit_witness :
    extract_company_totals_for_main_period
        [⟨some "http://fasb.org/us-gaap/2024", "Revenues", some "c1", some "1000"⟩]
        [("c1", ⟨"c1", none, some ⟨2025, 7, 31⟩, none, []⟩)] "T" ⟨2025, 9, 1⟩ 2
      = ([(⟨some "http://fasb.org/us-gaap/2024", "Revenues", some "c1",
            some "1000"⟩ : XmlElem)].filterMap
          (keepRow [("c1", ⟨"c1", none, some ⟨2025, 7, 31⟩, none, []⟩)]
            (get_document_period_end
              [⟨some "http://fasb.org/us-gaap/2024", "Revenues", some "c1", some "1000"⟩])
            "T" ⟨2025, 9, 1⟩)).take 2 :=
  (extractor_filters_and_limit
    [⟨some "http://fasb.org/us-gaap/2024", "Revenues", some "c1", some "1000"⟩]
    [("c1", ⟨"c1", none, some ⟨2025, 7, 31⟩, none, []⟩)] "T" ⟨2025, 9, 1⟩ 2
    (by decide)).1

/-- Counterexample to claim C3 as frozen: with `limit = 0` the extractor
still returns the first collected fact (the source appends a row before
testing `len(rows) >= limit`), so the result has 1 > 0 rows. -/
theorem extractor_limit_zero_cex :
    ¬ ((extract_company_totals_for_main_period
        [⟨some "http://fasb.org/us-gaap/2024", "Revenues", some "c1", some "1000"⟩]
        [("c1", ⟨"c1", none, some ⟨2025, 7, 31⟩, none, []⟩)]
        "T" ⟨2025, 9, 1⟩ 0).length ≤ 0) := by
  decide

/-! ## C1 — tolerance step-up matcher -/

theorem stepupLoop_all_empty (sec : ℚ) (bing : List (String × ℚ)) :
    ∀ tols : List ℚ, (∀ t ∈ tols, relMatchesAt sec bing t = []) →
      stepupLoop sec bing tols = [] := by
  intro tols
  induction tols with
  | nil => intro _; rfl
  | cons t rest ih =>
    intro h
    simp only [stepupLoop]
    rw [if_pos (h t (by simp))]
    exact ih (fun u hu => h u (by simp [hu]))

theorem relMatchesAt_eq_filter (sec : ℚ) :
    ∀ (bing : List (String × ℚ)) (tol : ℚ), (∀ p ∈ bing, p.2 ≠ (0 : ℚ)) →
      relMatchesAt sec bing tol
        = (bing.filter (fun p => decide (|p.2 - sec| / |sec| ≤ tol))).map
            (fun p => (p.1, p.2, |p.2 - sec| / |sec|)) := by
  intro bing
  induction bing with
  | nil => intro tol _; rfl
  | cons p rest ih =>
    intro tol hz
    have hp : p.2 ≠ 0 := hz p (by simp)
    have hrest : ∀ x ∈ rest, x.2 ≠ (0 : ℚ) := fun x hx => hz x (by simp [hx])
    unfold relMatchesAt at ih ⊢
    simp only [List.filterMap_cons, List.filter_cons]
    rw [if_neg hp]
    by_cases hq : |p.2 - sec| / |sec| ≤ tol
    · rw [if_pos hq]
      simp only [decide_eq_true hq, if_pos, List.map_cons]
      rw [ih tol hrest]
    · rw [if_neg hq]
      simp only [decide_eq_false hq]
      rw [if_neg (fun hh => Bool.noConfusion hh)]
      rw [ih tol hrest]

theorem stepupLoop_first (sec : ℚ) (bing : List (String × ℚ)) :
    ∀ (tols₁ : List ℚ) (tol : ℚ) (tols₂ : List ℚ),
      (∀ t ∈ tols₁, relMatchesAt sec bing t = []) →
      relMatchesAt sec bing tol ≠ [] →
      stepupLoop sec bing (tols₁ ++ tol :: tols₂)
        = List.insertionSort errLe (relMatchesAt sec bing tol) := by
  intro tols₁
  induction tols₁ with
  | nil =>
    intro tol tols₂ _ hne
    simp only [List.nil_append, stepupLoop]
    rw [if_neg hne]
  | cons t rest ih =>
    intro tol tols₂ hall hne
    simp only [List.cons_append, stepupLoop]
    rw [if_pos (hall t (by simp))]
    exact ih tol tols₂ (fun u hu => hall u (by simp [hu])) hne

/-- Claim C1: for a nonzero SEC value, nonzero vendor values and
`0 < step ≤ max_tolerance`, the matcher (1) computes per tolerance exactly
the vendor metrics within that relative tolerance, each with its relative
error; (2) tries exactly the thresholds `i·step` (for `i ≥ 1`) up to
`max_tolerance` inclusive; (3) returns empty when no tried threshold
matches anything; (4) at the first threshold with a match, returns a
permutation of that threshold's match set, sorted by ascending relative
error; and (5) on the spec's concrete example (SEC 1000, A=1001, B=1050,
step 0.5%, max 2%) returns only A. -/
theorem stepup_matcher_escalation (sec : ℚ) (bing : List (String × ℚ)) (max_tol step : ℚ)
    (hsec : sec ≠ 0) (hbz : ∀ p ∈ bing, p.2 ≠ (0 : ℚ))
    (hstep : 0 < step) (hle : step ≤ max_tol) :
    (∀ tol : ℚ, relMatchesAt sec bing tol
        = (bing.filter (fun p => decide (|p.2 - sec| / |sec| ≤ tol))).map
            (fun p => (p.1, p.2, |p.2 - sec| / |sec|)))
    ∧ (∀ i : ℕ, 1 ≤ i →
        (((i : ℚ) * step ∈ tolerancesOf max_tol step) ↔ (i : ℚ) * step ≤ max_tol))
    ∧ ((∀ i : ℕ, 1 ≤ i → (i : ℚ) * step ≤ max_tol →
          relMatchesAt sec bing ((i : ℚ) * step) = []) →
        find_close_matches_stepup sec bing max_tol step = [])
    ∧ (∀ i₀ : ℕ, 1 ≤ i₀ → (i₀ : ℚ) * step ≤ max_tol →
        relMatchesAt sec bing ((i₀ : ℚ) * step) ≠ [] →
        (∀ j : ℕ, 1 ≤ j → j < i₀ → relMatchesAt sec bing ((j : ℚ) * step) = []) →
        (find_close_matches_stepup sec bing max_tol step).Perm
            (relMatchesAt sec bing ((i₀ : ℚ) * step))
          ∧ List.Sorted errLe (find_close_matches_stepup sec bing max_tol step))
    ∧ find_close_matches_stepup 1000 [("A", 1001), ("B", 1050)] (1 / 50) (1 / 200)
        = [("A", 1001, 1 / 1000)] := by
  have hq0 : 0 < max_tol / step := div_pos (lt_of_lt_of_le hstep hle) hstep
  have hfloor : pyInt (max_tol / step) = ⌊max_tol / step⌋ := by
    unfold pyInt
    rw [if_neg (not_lt.mpr hq0.le)]
  have hfl0 : 0 ≤ ⌊max_tol / step⌋ := Int.le_floor.mpr (by exact_mod_cast hq0.le)
  have hNZ : ((pyInt (max_tol / step)).toNat : ℤ) = ⌊max_tol / step⌋ := by
    rw [hfloor]
    exact Int.toNat_of_nonneg hfl0
  have hiN : ∀ i : ℕ, (i ≤ (pyInt (max_tol / step)).toNat ↔ (i : ℚ) * step ≤ max_tol) := by
    intro i
    have h1 : (i : ℚ) * step ≤ max_tol ↔ (i : ℚ) ≤ max_tol / step :=
      (le_div_iff₀ hstep).symm
    have h2 : (i : ℚ) ≤ max_tol / step ↔ (i : ℤ) ≤ ⌊max_tol / step⌋ := by
      rw [Int.le_floor]
      push_cast
      exact Iff.rfl
    rw [h1, h2, ← hNZ]
    exact_mod_cast Iff.rfl
  have hmem : ∀ i : ℕ, 1 ≤ i →
      (((i : ℚ) * step ∈ tolerancesOf max_tol step) ↔ (i : ℚ) * step ≤ max_tol) := by
    intro i hi
    unfold tolerancesOf
    constructor
    · intro hm
      obtain ⟨j, hj, hje⟩ := List.mem_map.mp hm
      have hj' := List.mem_range'.mp hj
      obtain ⟨a, ha, hae⟩ := hj'
      have hji : j = i := by
        have := mul_right_cancel₀ (ne_of_gt hstep) hje
        exact_mod_cast this
      subst hji
      exact (hiN j).mp (by omega)
    · intro hb
      refine List.mem_map.mpr ⟨i, ?_, rfl⟩
      refine List.mem_range'.mpr ⟨i - 1, ?_, by omega⟩
      have := (hiN i).mpr hb
      omega
  have hmatch : ∀ tol : ℚ, relMatchesAt sec bing tol
      = (bing.filter (fun p => decide (|p.2 - sec| / |sec| ≤ tol))).map
          (fun p => (p.1, p.2, |p.2 - sec| / |sec|)) :=
    fun tol => relMatchesAt_eq_filter sec bing tol hbz
  refine ⟨hmatch, hmem, ?_, ?_, by with_unfolding_all rfl⟩
  · intro hall
    unfold find_close_matches_stepup
    rw [if_neg hsec]
    apply stepupLoop_all_empty
    intro t ht
    unfold tolerancesOf at ht
    obtain ⟨j, hj, hje⟩ := List.mem_map.mp ht
    obtain ⟨a, ha, hae⟩ := List.mem_range'.mp hj
    have hj1 : 1 ≤ j := by omega
    have hjN : j ≤ (pyInt (max_tol / step)).toNat := by omega
    subst hje
    exact hall j hj1 ((hiN j).mp hjN)
  · intro i₀ h1 h2 hne hprev
    have hiN0 : i₀ ≤ (pyInt (max_tol / step)).toNat := (hiN i₀).mpr h2
    have hsplit : tolerancesOf max_tol step
        = ((List.range' 1 (i₀ - 1)).map (fun i : ℕ => (i : ℚ) * step))
          ++ ((i₀ : ℚ) * step)
            :: ((List.range' (i₀ + 1) ((pyInt (max_tol / step)).toNat - i₀)).map
                  (fun i : ℕ => (i : ℚ) * step)) := by
      unfold tolerancesOf
      have hr := List.range'_append 1 (i₀ - 1) ((pyInt (max_tol / step)).toNat - i₀ + 1) 1
      have e1 : 1 + 1 * (i₀ - 1) = i₀ := by omega
      have e2 : (pyInt (max_tol / step)).toNat - i₀ + 1 + (i₀ - 1)
          = (pyInt (max_tol / step)).toNat := by omega
      rw [e1, e2] at hr
      rw [← hr]
      have e3 : (pyInt (max_tol / step)).toNat - i₀ + 1
          = ((pyInt (max_tol / step)).toNat - i₀) + 1 := rfl
      rw [e3, List.range'_succ]
      simp [List.map_append]
    unfold find_close_matches_stepup
    rw [if_neg hsec, hsplit]
    rw [stepupLoop_first sec bing _ _ _ ?_ hne]
    · exact ⟨List.perm_insertionSort errLe _, List.sorted_insertionSort errLe _⟩
    · intro t ht
      obtain ⟨j, hj, hje⟩ := List.mem_map.mp ht
      obtain ⟨a, ha, hae⟩ := List.mem_range'.mp hj
      subst hje
      exact hprev j (by omega) (by omega)

/-- Witness for `stepup_matcher_escalation` at the spec's concrete example:
the first threshold (0.5%) already matches, and the returned list is that
threshold's match set sorted by error. -/
theorem stepup_matcher_escalation_witness :
    (find_close_matches_stepup 1000 [("A", 1001), ("B", 1050)] (1 / 50) (1 / 200)).Perm
        (relMatchesAt 1000 [("A", 1001), ("B", 1050)] (((1 : ℕ) : ℚ) * (1 / 200)))
      ∧ List.Sorted errLe
          (find_close_matches_stepup 1000 [("A", 1001), ("B", 1050)] (1 / 50) (1 / 200)) :=
  (stepup_matcher_escalation 1000 [("A", 1001), ("B", 1050)] (1 / 50) (1 / 200)
      (by norm_num)
      (by
        intro p hp
        simp only [List.mem_cons, List.mem_singleton] at hp
        rcases hp with h | h | h <;> first
          | (rw [h]; norm_num)
          | exact absurd h (List.not_mem_nil p))
      (by norm_num) (by norm_num)).2.2.2.1 1 le_rfl
    (by norm_num)
    (by with_unfolding_all decide)
    (fun j hj1 hj2 => absurd (lt_of_le_of_lt hj1 hj2) (lt_irrefl 1))

/-! ## C2 — evidence aggregator / mapping builder -/

theorem statPrefLe_refl (a : String × ℕ × ℚ) : statPrefLe a a :=
  Or.inr ⟨rfl, le_refl _⟩

theorem sorted_head_min {l : List (String × ℕ × ℚ)} {x : String × ℕ × ℚ}
    (hs : List.Sorted statPrefLe l) (hh : l.head? = some x) :
    ∀ y ∈ l, statPrefLe x y := by
  cases l with
  | nil => cases hh
  | cons a t =>
    have hax : a = x := by simpa using hh
    subst hax
    intro y hy
    rcases List.mem_cons.mp hy with h | h
    · rw [h]
      exact statPrefLe_refl _
    · exact (List.sorted_cons.mp hs).1 y h

theorem mem_of_head?_some {α : Type} {l : List α} {x : α} (h : l.head? = some x) : x ∈ l := by
  cases l with
  | nil => cases h
  | cons a t =>
    have : a = x := by simpa using h
    rw [← this]
    exact List.mem_cons_self a t

theorem assoc_nodup_value_eq {α : Type} :
    ∀ {l : List (String × α)}, (l.map Prod.fst).Nodup →
      ∀ {k : String} {v v' : α}, (k, v) ∈ l → (k, v') ∈ l → v = v' := by
  intro l
  induction l with
  | nil =>
    intro _ k v v' h1
    cases h1
  | cons p tl ih =>
    intro hnd k v v' h1 h2
    have hnd' : (tl.map Prod.fst).Nodup := (List.nodup_cons.mp hnd).2
    have hp : p.1 ∉ tl.map Prod.fst := (List.nodup_cons.mp hnd).1
    rcases List.mem_cons.mp h1 with e1 | m1 <;> rcases List.mem_cons.mp h2 with e2 | m2
    · rw [← e1] at e2
      exact (congrArg Prod.snd e2).symm
    · exfalso
      apply hp
      have hk : k = p.1 := congrArg Prod.fst e1
      rw [← hk]
      exact List.mem_map.mpr ⟨(k, v'), m2, rfl⟩
    · exfalso
      apply hp
      have hk : k = p.1 := congrArg Prod.fst e2
      rw [← hk]
      exact List.mem_map.mpr ⟨(k, v), m1, rfl⟩
    · exact ih hnd' m1 m2

theorem chooseConcept_spec (min_hits : ℕ) (mme : ℚ) (cands : List (String × List ℚ))
    (hnz : ∃ p ∈ cands, p.2 ≠ []) :
    ∃ best hits err, chooseConcept min_hits mme cands = some best ∧
      (best, hits, err) ∈ candidateStats cands ∧
      ((∃ s ∈ candidateStats cands, isPreferredStat min_hits mme s = true) →
        isPreferredStat min_hits mme (best, hits, err) = true ∧
        ∀ s ∈ candidateStats cands, isPreferredStat min_hits mme s = true →
          statPrefLe (best, hits, err) s) ∧
      ((∀ s ∈ candidateStats cands, isPreferredStat min_hits mme s = false) →
        ∀ s ∈ candidateStats cands, statPrefLe (best, hits, err) s) := by
  obtain ⟨p, hp, hpne⟩ := hnz
  have hpstat : (p.1, p.2.length, p.2.sum / (p.2.length : ℚ)) ∈ candidateStats cands := by
    refine List.mem_filterMap.mpr ⟨p, hp, ?_⟩
    rw [if_neg hpne]
  have hstats_ne : candidateStats cands ≠ [] := by
    intro h
    rw [h] at hpstat
    exact absurd hpstat (List.not_mem_nil _)
  have hperm : (List.insertionSort statPrefLe (candidateStats cands)).Perm
      (candidateStats cands) := List.perm_insertionSort _ _
  have hsort : List.Sorted statPrefLe (List.insertionSort statPrefLe (candidateStats cands)) :=
    List.sorted_insertionSort _ _
  unfold chooseConcept
  rw [if_neg hstats_ne]
  dsimp only
  cases hh : ((List.insertionSort statPrefLe (candidateStats cands)).filter
      (isPreferredStat min_hits mme)).head? with
  | some q =>
    have hqf : q ∈ (List.insertionSort statPrefLe (candidateStats cands)).filter
        (isPreferredStat min_hits mme) := mem_of_head?_some hh
    have hq_sorted : q ∈ List.insertionSort statPrefLe (candidateStats cands) :=
      List.mem_of_mem_filter hqf
    have hq_stats : q ∈ candidateStats cands := hperm.mem_iff.mp hq_sorted
    have hq_pref : isPreferredStat min_hits mme q = true := List.of_mem_filter hqf
    refine ⟨q.1, q.2.1, q.2.2, rfl, hq_stats, ?_, ?_⟩
    · intro _
      refine ⟨hq_pref, ?_⟩
      intro s hs hsp
      have hs_sorted : s ∈ List.insertionSort statPrefLe (candidateStats cands) :=
        hperm.mem_iff.mpr hs
      have hs_filter : s ∈ (List.insertionSort statPrefLe (candidateStats cands)).filter
          (isPreferredStat min_hits mme) := List.mem_filter.mpr ⟨hs_sorted, hsp⟩
      have hfs : List.Sorted statPrefLe
          ((List.insertionSort statPrefLe (candidateStats cands)).filter
            (isPreferredStat min_hits mme)) := List.Pairwise.filter _ hsort
      exact sorted_head_min hfs hh s hs_filter
    · intro hnone
      exact absurd hq_pref (by rw [hnone q hq_stats]; exact fun h => Bool.noConfusion h)
  | none =>
    have hsne : List.insertionSort statPrefLe (candidateStats cands) ≠ [] := by
      intro h
      have := hperm.length_eq
      rw [h] at this
      exact hstats_ne (List.eq_nil_of_length_eq_zero this.symm)
    have hfe : (List.insertionSort statPrefLe (candidateStats cands)).filter
        (isPreferredStat min_hits mme) = [] := List.head?_eq_none_iff.mp hh
    cases hso : List.insertionSort statPrefLe (candidateStats cands) with
    | nil => exact absurd hso hsne
    | cons s₀ t₀ =>
      have hs₀_stats : s₀ ∈ candidateStats cands := by
        refine hperm.mem_iff.mp ?_
        rw [hso]
        exact List.mem_cons_self _ _
      have hnopref : ∀ s ∈ candidateStats cands, isPreferredStat min_hits mme s = false := by
        intro s hs
        have hs_sorted : s ∈ List.insertionSort statPrefLe (candidateStats cands) :=
          hperm.mem_iff.mpr hs
        by_cases hb : isPreferredStat min_hits mme s = true
        · exfalso
          have : s ∈ (List.insertionSort statPrefLe (candidateStats cands)).filter
              (isPreferredStat min_hits mme) := List.mem_filter.mpr ⟨hs_sorted, hb⟩
          rw [hfe] at this
          exact absurd this (List.not_mem_nil _)
        · exact Bool.eq_false_iff.mpr hb
      refine ⟨s₀.1, s₀.2.1, s₀.2.2, rfl, hs₀_stats, ?_, ?_⟩
      · intro hex
        obtain ⟨s, hs, hsp⟩ := hex
        exact absurd hsp (by rw [hnopref s hs]; exact fun h => Bool.noConfusion h)
      · intro _
        intro s hs
        have hs_sorted : s ∈ List.insertionSort statPrefLe (candidateStats cands) :=
          hperm.mem_iff.mpr hs
        rw [hso] at hs_sorted
        have hsmin : ∀ y ∈ s₀ :: t₀, statPrefLe s₀ y := by
          intro y hy
          rcases List.mem_cons.mp hy with h | h
          · rw [h]
            exact statPrefLe_refl _
          · rw [hso] at hsort
            exact (List.sorted_cons.mp hsort).1 y h
        exact hsmin s hs_sorted

/-- Claim C2: for every evidence store and every `(ticker, vendor_metric)`
pair holding at least one nonempty list of observed errors, the final
mapping assigns that pair exactly one SEC concept; the chosen concept is a
candidate of the pair, it is the `(-hits, mean_error)`-best preferred
candidate (`hits ≥ min_hits` and `mean ≤ max_mean_err`) when any preferred
candidate exists, and the `(-hits, mean_error)`-best candidate overall
otherwise — there is no "no mapping" outcome once evidence exists. -/
theorem aggregator_assigns_best (min_hits : ℕ) (max_mean_err : ℚ) (ev : Evidence)
    (t : String) (ms : List (String × List (String × List ℚ)))
    (bm : String) (cands : List (String × List ℚ))
    (hev : (t, ms) ∈ ev) (hms : (bm, cands) ∈ ms)
    (hnz : ∃ p ∈ cands, p.2 ≠ [])
    (hnt : (ev.map Prod.fst).Nodup) (hnm : (ms.map Prod.fst).Nodup) :
    ∃ tm best hits err,
      (t, tm) ∈ build_company_sec_mapping ev min_hits max_mean_err ∧
      (∀ tm', (t, tm') ∈ build_company_sec_mapping ev min_hits max_mean_err → tm' = tm) ∧
      (bm, best) ∈ tm ∧ (∀ c', (bm, c') ∈ tm → c' = best) ∧
      chooseConcept min_hits max_mean_err cands = some best ∧
      (best, hits, err) ∈ candidateStats cands ∧
      ((∃ s ∈ candidateStats cands, isPreferredStat min_hits max_mean_err s = true) →
        isPreferredStat min_hits max_mean_err (best, hits, err) = true ∧
        ∀ s ∈ candidateStats cands, isPreferredStat min_hits max_mean_err s = true →
          statPrefLe (best, hits, err) s) ∧
      ((∀ s ∈ candidateStats cands, isPreferredStat min_hits max_mean_err s = false) →
        ∀ s ∈ candidateStats cands, statPrefLe (best, hits, err) s) := by
  obtain ⟨best, hits, err, hcc, hmem, hprefc, hfallc⟩ :=
    chooseConcept_spec min_hits max_mean_err cands hnz
  refine ⟨ms.filterMap (fun mp =>
      (chooseConcept min_hits max_mean_err mp.2).map (fun c => (mp.1, c))),
    best, hits, err, ?_, ?_, ?_, ?_, hcc, hmem, hprefc, hfallc⟩
  · refine List.mem_filterMap.mpr ⟨(t, ms), hev, ?_⟩
    dsimp only
    rw [if_neg ?_]
    intro hnil
    have : (bm, best) ∈ ms.filterMap (fun mp =>
        (chooseConcept min_hits max_mean_err mp.2).map (fun c => (mp.1, c))) :=
      List.mem_filterMap.mpr ⟨(bm, cands), hms, by rw [hcc]; rfl⟩
    rw [hnil] at this
    exact absurd this (List.not_mem_nil _)
  · intro tm' htm'
    obtain ⟨⟨t₂, ms₂⟩, hmem₂, heq₂⟩ := List.mem_filterMap.mp htm'
    dsimp only at heq₂
    by_cases hnil : ms₂.filterMap (fun mp =>
        (chooseConcept min_hits max_mean_err mp.2).map (fun c => (mp.1, c))) = []
    · rw [if_pos hnil] at heq₂
      cases heq₂
    · rw [if_neg hnil] at heq₂
      have ht₂ : t₂ = t := congrArg Prod.fst (Option.some.inj heq₂)
      subst ht₂
      have hms₂ : ms₂ = ms := assoc_nodup_value_eq hnt hmem₂ hev
      subst hms₂
      exact (congrArg Prod.snd (Option.some.inj heq₂)).symm
  · exact List.mem_filterMap.mpr ⟨(bm, cands), hms, by rw [hcc]; rfl⟩
  · intro c' hc'
    obtain ⟨⟨bm₂, cands₂⟩, hmem₂, heq₂⟩ := List.mem_filterMap.mp hc'
    dsimp only at heq₂
    cases hcc₂ : chooseConcept min_hits max_mean_err cands₂ with
    | none => rw [hcc₂] at heq₂; cases heq₂
    | some c₂ =>
      rw [hcc₂] at heq₂
      have hb : bm₂ = bm := congrArg Prod.fst (Option.some.inj heq₂)
      subst hb
      have hcands : cands₂ = cands := assoc_nodup_value_eq hnm hmem₂ hms
      subst hcands
      rw [hcc] at hcc₂
      have : c₂ = best := (Option.some.inj hcc₂).symm
      subst this
      exact (congrArg Prod.snd (Option.some.inj heq₂)).symm

/-- Witness for `aggregator_assigns_best` at the spec's fallback example:
candidates X (3 hits, mean error 0.06) and Y (5 hits, mean error 0.08) with
`min_hits = 1`, `max_mean_err = 0.05`: neither is preferred and the fallback
choice is Y (more hits beats lower error). -/
theorem aggregator_assigns_best_witness :
    (∃ tm best,
      ("T", tm) ∈ build_company_sec_mapping
        [("T", [("M", [("X", [6/100, 6/100, 6/100]),
                       ("Y", [8/100, 8/100, 8/100, 8/100, 8/100])])])] 1 (5/100) ∧
      ("M", best) ∈ tm ∧
      chooseConcept 1 (5/100)
          [("X", [6/100, 6/100, 6/100]), ("Y", [8/100, 8/100, 8/100, 8/100, 8/100])]
        = some best) ∧
    chooseConcept 1 (5/100)
        [("X", [6/100, 6/100, 6/100]), ("Y", [8/100, 8/100, 8/100, 8/100, 8/100])]
      = some "Y" := by
  constructor
  · obtain ⟨tm, best, hits, err, h1, _, h3, _, h5, _⟩ :=
      aggregator_assigns_best 1 (5/100)
        [("T", [("M", [("X", [6/100, 6/100, 6/100]),
                       ("Y", [8/100, 8/100, 8/100, 8/100, 8/100])])])]
        "T" [("M", [("X", [6/100, 6/100, 6/100]),
                    ("Y", [8/100, 8/100, 8/100, 8/100, 8/100])])]
        "M" [("X", [6/100, 6/100, 6/100]), ("Y", [8/100, 8/100, 8/100, 8/100, 8/100])]
        (List.mem_singleton.mpr rfl) (List.mem_singleton.mpr rfl)
        ⟨("X", [6/100, 6/100, 6/100]), List.mem_cons_self _ _, by simp⟩
        (by simp) (by simp)
    exact ⟨tm, best, h1, h3, h5⟩
  · with_unfolding_all rfl

/-! ## C5 — batch fault isolation -/

/-- Claim C5: a filing whose processing raises leaves the evidence store
exactly as it was (the `except` branch of the loop body), and a whole batch
accumulates exactly the evidence of its non-failing filings — the run
completes for every batch (the fold is total), failures only skip their own
filing. -/
theorem batch_fault_isolation {F : Type} (proc : F → Except String (List MatchObs))
    (filings : List F) :
    (∀ (ev : Evidence) (f : F) (e : String), proc f = .error e → batchStep proc ev f = ev)
    ∧ runBatch proc filings
        = runBatch proc (filings.filter (fun f => exceptOk (proc f))) := by
  constructor
  · intro ev f e he
    unfold batchStep
    rw [he]
  · unfold runBatch
    have hgen : ∀ (fs : List F) (init : Evidence),
        fs.foldl (batchStep proc) init
          = (fs.filter (fun f => exceptOk (proc f))).foldl (batchStep proc) init := by
      intro fs
      induction fs with
      | nil => intro _; rfl
      | cons f rest ih =>
        intro init
        simp only [List.foldl_cons, List.filter_cons]
        cases hf : proc f with
        | ok obs =>
          have hOk : exceptOk (Except.ok obs : Except String (List MatchObs)) = true := by rfl
          rw [if_pos hOk, List.foldl_cons]
          exact ih _
        | error e =>
          have hskip : batchStep proc init f = init := by
            unfold batchStep
            rw [hf]
          have hErr : exceptOk (Except.error e : Except String (List MatchObs)) = false := by rfl
          rw [if_neg (fun h => Bool.noConfusion (hErr.symm.trans h)), hskip]
          exact ih init
    exact hgen filings []

/-- Witness for `batch_fault_isolation`: a 5-filing batch whose third filing
raises a parse error contributes evidence from filings 1, 2, 4, 5 only, and
the failing filing leaves a nonempty evidence store untouched. -/
theorem batch_fault_isolation_witness :
    batchStep
        (fun n : ℕ => if n = 3 then (.error "XML parse error" : Except String (List MatchObs))
          else .ok [⟨"T", "Revenue", "us-gaap:Revenues", 0⟩])
        [("T", [("Revenue", [("us-gaap:Revenues", [0, 0])])])] 3
      = [("T", [("Revenue", [("us-gaap:Revenues", [0, 0])])])]
    ∧ runBatch
        (fun n : ℕ => if n = 3 then (.error "XML parse error" : Except String (List MatchObs))
          else .ok [⟨"T", "Revenue", "us-gaap:Revenues", 0⟩])
        [1, 2, 3, 4, 5]
      = runBatch
          (fun n : ℕ => if n = 3 then (.error "XML parse error" : Except String (List MatchObs))
            else .ok [⟨"T", "Revenue", "us-gaap:Revenues", 0⟩])
          [1, 2, 4, 5] := by
  constructor
  · exact (batch_fault_isolation
      (fun n : ℕ => if n = 3 then (.error "XML parse error" : Except String (List MatchObs))
        else .ok [⟨"T", "Revenue", "us-gaap:Revenues", 0⟩]) [1, 2, 3, 4, 5]).1
      [("T", [("Revenue", [("us-gaap:Revenues", [0, 0])])])] 3 "XML parse error" rfl
  · exact (batch_fault_isolation
      (fun n : ℕ => if n = 3 then (.error "XML parse error" : Except String (List MatchObs))
        else .ok [⟨"T", "Revenue", "us-gaap:Revenues", 0⟩]) [1, 2, 3, 4, 5]).2

/-! ## C7 — vendor period-label parser -/

theorem isPySpace_eq_false_of_isAlpha {c : Char} (h : c.isAlpha = true) :
    isPySpace c = false := by
  unfold isPySpace
  by_cases h1 : c = ' '
  · rw [h1] at h; exact absurd h (by decide)
  · by_cases h2 : c = '\t'
    · rw [h2] at h; exact absurd h (by decide)
    · by_cases h3 : c = '\n'
      · rw [h3] at h; exact absurd h (by decide)
      · by_cases h4 : c = '\r'
        · rw [h4] at h; exact absurd h (by decide)
        · by_cases h5 : c = '\x0b'
          · rw [h5] at h; exact absurd h (by decide)
          · by_cases h6 : c = '\x0c'
            · rw [h6] at h; exact absurd h (by decide)
            · simp [h1, h2, h3, h4, h5, h6]

theorem dropWhile_cons_not_space {m : Char} {l : List Char} (h : isPySpace m = false) :
    (m :: l).dropWhile isPySpace = m :: l := by
  rw [List.dropWhile_cons, h]
  simp

theorem char_digit_toNat_bounds {c : Char} (h : c.isDigit = true) :
    48 ≤ c.toNat ∧ c.toNat ≤ 57 := by
  simp [Char.isDigit] at h
  obtain ⟨h1, h2⟩ := h
  exact ⟨h1, h2⟩

theorem fourDigit_le {y1 y2 y3 y4 : Char} (h1 : y1.isDigit = true) (h2 : y2.isDigit = true)
    (h3 : y3.isDigit = true) (h4 : y4.isDigit = true) :
    digitsToNat [y1, y2, y3, y4] ≤ 9999 := by
  have b1 := char_digit_toNat_bounds h1
  have b2 := char_digit_toNat_bounds h2
  have b3 := char_digit_toNat_bounds h3
  have b4 := char_digit_toNat_bounds h4
  unfold digitsToNat
  simp only [List.foldl_cons, List.foldl_nil]
  omega

/-- Claim C7 as amended: every well-formed vendor period label
`"<3-letter month> <4-digit year> (FQ<digit>)"` whose year value is at
least 1 parses to the integer year, the quarter digit and the last calendar
day of that month in that year; labels that fail the pattern or carry an
unknown month abbreviation raise, and so does a well-formed label with year
`0000`, which the `datetime.date` constructor rejects outside the `strptime`
`try/except`; in particular `"Oct 2025 (FQ4)"` parses to
`(2025, 4, 2025-10-31)` while `"Oct 2025"` and `"Xyz 2025 (FQ4)"` raise. -/
theorem period_label_parsing :
    (∀ (m1 m2 m3 y1 y2 y3 y4 qd : Char) (mo : ℕ),
      m1.isAlpha = true → m2.isAlpha = true → m3.isAlpha = true →
      y1.isDigit = true → y2.isDigit = true → y3.isDigit = true → y4.isDigit = true →
      qd.isDigit = true →
      1 ≤ digitsToNat [y1, y2, y3, y4] →
      monthFromAbbrev [m1, m2, m3] = some mo →
      parse_period_label
          (String.mk [m1, m2, m3, ' ', y1, y2, y3, y4, ' ', '(', 'F', 'Q', qd, ')'])
        = .ok ⟨digitsToNat [y1, y2, y3, y4], digitsToNat [qd],
            ⟨digitsToNat [y1, y2, y3, y4], mo,
              daysInMonth (digitsToNat [y1, y2, y3, y4]) mo⟩⟩)
    ∧ (∀ s : String, matchPeriodChars (pyStripChars s.data) = none →
        ∃ e, parse_period_label s = .error e)
    ∧ (∀ (s : String) (mcs : List Char) (y q : ℕ),
        matchPeriodChars (pyStripChars s.data) = some (mcs, y, q) →
        monthFromAbbrev mcs = none → ∃ e, parse_period_label s = .error e)
    ∧ (∀ (s : String) (mcs : List Char) (q mo : ℕ),
        matchPeriodChars (pyStripChars s.data) = some (mcs, 0, q) →
        monthFromAbbrev mcs = some mo → ∃ e, parse_period_label s = .error e)
    ∧ parse_period_label "Oct 2025 (FQ4)" = .ok ⟨2025, 4, ⟨2025, 10, 31⟩⟩
    ∧ (∃ e, parse_period_label "Oct 2025" = .error e)
    ∧ (∃ e, parse_period_label "Xyz 2025 (FQ4)" = .error e) := by
  refine ⟨?_, ?_, ?_, ?_, rfl, ⟨_, rfl⟩, ⟨_, rfl⟩⟩
  · intro m1 m2 m3 y1 y2 y3 y4 qd mo hm1 hm2 hm3 hy1 hy2 hy3 hy4 hqd hy1le hmo
    have hstrip : pyStripChars [m1, m2, m3, ' ', y1, y2, y3, y4, ' ', '(', 'F', 'Q', qd, ')']
        = [m1, m2, m3, ' ', y1, y2, y3, y4, ' ', '(', 'F', 'Q', qd, ')'] := by
      unfold pyStripChars
      rw [dropWhile_cons_not_space (isPySpace_eq_false_of_isAlpha hm1)]
      have hrev : ([m1, m2, m3, ' ', y1, y2, y3, y4, ' ', '(', 'F', 'Q', qd, ')'] :
          List Char).reverse
          = [')', qd, 'Q', 'F', '(', ' ', y4, y3, y2, y1, ' ', m3, m2, m1] := by rfl
      rw [hrev, dropWhile_cons_not_space (by rfl)]
      rfl
    unfold parse_period_label
    rw [show (String.mk [m1, m2, m3, ' ', y1, y2, y3, y4, ' ', '(', 'F', 'Q', qd, ')']).data
        = [m1, m2, m3, ' ', y1, y2, y3, y4, ' ', '(', 'F', 'Q', qd, ')'] from rfl]
    rw [hstrip]
    simp only [matchPeriodChars]
    rw [if_pos (by rw [hm1, hm2, hm3, hy1, hy2, hy3, hy4, hqd]; rfl)]
    dsimp only
    rw [hmo]
    dsimp only
    rw [if_pos ⟨hy1le, fourDigit_le hy1 hy2 hy3 hy4⟩]
  · intro s hnone
    unfold parse_period_label
    rw [hnone]
    exact ⟨_, rfl⟩
  · intro s mcs y q hsome hmo
    unfold parse_period_label
    rw [hsome]
    dsimp only
    rw [hmo]
    exact ⟨_, rfl⟩
  · intro s mcs q mo hsome hmo
    unfold parse_period_label
    rw [hsome]
    dsimp only
    rw [hmo]
    dsimp only
    rw [if_neg (by omega)]
    exact ⟨_, rfl⟩

/-- Counterexample to the unamended claim: the label `"Oct 0000 (FQ4)"` is of
the well-formed `"<3-letter month> <4-digit year> (FQ<digit>)"` shape, yet
`parse_period_label` raises on it rather than returning fiscal year 0: the
`datetime.date` constructor, called outside the `try/except`, rejects year 0
(`MINYEAR` is 1). -/
theorem period_label_year_zero_cex :
    ∃ e, parse_period_label "Oct 0000 (FQ4)" = .error e := ⟨_, rfl⟩

/-- Witness for `period_label_parsing`: the general well-formed-label clause
applied to the characters of `"Oct 2025 (FQ4)"`, and the year-zero raise
clause at `"Jan 0000 (FQ1)"`. -/
theorem period_label_parsing_witness :
    parse_period_label
        (String.mk ['O', 'c', 't', ' ', '2', '0', '2', '5', ' ', '(', 'F', 'Q', '4', ')'])
      = .ok ⟨2025, 4, ⟨2025, 10, 31⟩⟩
    ∧ ∃ e, parse_period_label "Jan 0000 (FQ1)" = .error e := by
  constructor
  · exact period_label_parsing.1 'O' 'c' 't' '2' '0' '2' '5' '4' 10
      (by decide) (by decide) (by decide) (by decide) (by decide) (by decide) (by decide)
      (by decide) (by decide) (by decide)
  · exact period_label_parsing.2.2.2.1 "Jan 0000 (FQ1)" ['J', 'a', 'n'] 1 1
      (by decide) (by decide)

/-! ## Normalizer lemmas shared by C4 and C6 -/

theorem pyStripChars_length_le (cs : List Char) : (pyStripChars cs).length ≤ cs.length := by
  unfold pyStripChars
  simp only [List.length_reverse]
  calc ((cs.dropWhile isPySpace).reverse.dropWhile isPySpace).length
      ≤ (cs.dropWhile isPySpace).reverse.length := (List.dropWhile_sublist _).length_le
    _ = (cs.dropWhile isPySpace).length := List.length_reverse _
    _ ≤ cs.length := (List.dropWhile_sublist _).length_le

theorem dropWhile_idem (p : Char → Bool) (l : List Char) :
    (l.dropWhile p).dropWhile p = l.dropWhile p := by
  induction l with
  | nil => rfl
  | cons c t ih =>
    rw [List.dropWhile_cons]
    by_cases hc : p c = true
    · rw [if_pos hc]
      exact ih
    · rw [if_neg hc, List.dropWhile_cons,
        if_neg hc]

theorem pyStripChars_dropWhile (cs : List Char) :
    pyStripChars (cs.dropWhile isPySpace) = pyStripChars cs := by
  unfold pyStripChars
  rw [dropWhile_idem]

theorem pyStripChars_append_percent (cs : List Char) :
    pyStripChars (cs ++ ['%']) = (cs.dropWhile isPySpace) ++ ['%'] := by
  unfold pyStripChars
  rw [List.dropWhile_append]
  by_cases h : (cs.dropWhile isPySpace).isEmpty
  · rw [if_pos h]
    have hnil : cs.dropWhile isPySpace = [] := by
      cases hx : cs.dropWhile isPySpace
      · rfl
      · rw [hx] at h
        exact absurd h (by simp)
    rw [hnil]
    rfl
  · rw [if_neg h]
    rw [List.reverse_append]
    have h1 : (['%'] : List Char).reverse = ['%'] := rfl
    rw [h1]
    rw [show (['%'] : List Char) ++ (cs.dropWhile isPySpace).reverse
        = '%' :: (cs.dropWhile isPySpace).reverse from rfl]
    rw [dropWhile_cons_not_space (by rfl)]
    rw [List.reverse_cons, List.reverse_reverse]

theorem getLast?_concat_percent (d : List Char) : (d ++ ['%']).getLast? = some '%' := by
  induction d with
  | nil => rfl
  | cons c t ih =>
    rw [List.cons_append, getLast?_cons_eq, ih]
    rfl

theorem okAgree_refl_shape (x : Except String (Option ℚ)) : okAgree x x := by
  cases x <;> simp [okAgree]

theorem parseNumericFuel_agree :
    ∀ (f1 : ℕ) (cs1 : List Char) (f2 : ℕ) (cs2 : List Char),
      cs1.length < f1 → cs2.length < f2 → pyStripChars cs1 = pyStripChars cs2 →
      okAgree (parseNumericFuel f1 cs1) (parseNumericFuel f2 cs2) := by
  intro f1
  induction f1 with
  | zero =>
    intro cs1 _ _ h1
    exact absurd h1 (Nat.not_lt_zero _)
  | succ f1' ih =>
    intro cs1 f2 cs2 h1 h2 hs
    cases f2 with
    | zero => exact absurd h2 (Nat.not_lt_zero _)
    | succ f2' =>
      simp only [parseNumericFuel]
      rw [← hs]
      by_cases he : pyStripChars cs1 = []
      · rw [if_pos he, if_pos he]
        simp [okAgree]
      · rw [if_neg he, if_neg he]
        by_cases hd : pyStripChars cs1 = ['-']
        · rw [if_pos hd, if_pos hd]
          simp [okAgree]
        · rw [if_neg hd, if_neg hd]
          by_cases hp : (pyStripChars cs1).getLast? = some '%'
          · rw [if_pos hp, if_pos hp]
            have hlen : (pyStripChars cs1).length ≠ 0 := by
              intro hz
              exact he (List.eq_nil_of_length_eq_zero hz)
            have hstrip1 : (pyStripChars cs1).length ≤ cs1.length := pyStripChars_length_le cs1
            have hstrip2 : (pyStripChars cs1).length ≤ cs2.length := by
              rw [hs]
              exact pyStripChars_length_le cs2
            have hl1 : (pyStripChars cs1).dropLast.length < f1' := by
              rw [List.length_dropLast]
              omega
            have hl2 : (pyStripChars cs1).dropLast.length < f2' := by
              rw [List.length_dropLast]
              omega
            have hrec := ih (pyStripChars cs1).dropLast f2' (pyStripChars cs1).dropLast
              hl1 hl2 rfl
            cases hr1 : parseNumericFuel f1' (pyStripChars cs1).dropLast with
            | ok a =>
              cases hr2 : parseNumericFuel f2' (pyStripChars cs1).dropLast with
              | ok b =>
                rw [hr1, hr2] at hrec
                have hab : a = b := hrec
                subst hab
                cases a <;> simp [okAgree]
              | error e2 =>
                rw [hr1, hr2] at hrec
                exact absurd hrec (by simp [okAgree])
            | error e1 =>
              cases hr2 : parseNumericFuel f2' (pyStripChars cs1).dropLast with
              | ok b =>
                rw [hr1, hr2] at hrec
                exact absurd hrec (by simp [okAgree])
              | error e2 =>
                simp [okAgree]
          · rw [if_neg hp, if_neg hp]
            cases hmu : matchUnitPattern (pyStripChars cs1) with
            | some r =>
              cases r with
              | mk q u => simp [okAgree]
            | none =>
              cases hf : pyFloatChars (pyStripChars cs1) with
              | some q => simp [okAgree]
              | none => simp [okAgree]

/-! ## C4 — error behaviour of the numeric normalizers -/

/-- Counterexample to claim C4 as frozen: the vendor comma-stripped suffix
parser silently coerces an unparsable non-empty, non-placeholder string to
"no value" instead of raising a malformed-input error. -/
theorem bing_number_silent_none_cex :
    parse_bing_number "not-a-number" = .ok none := by
  with_unfolding_all rfl

/-- Claim C4 as amended: in the dataset normalizer `parse_numeric`, `None`,
the empty string and the lone dash yield "no value" without raising, while
every other stripped string that is not a percent form and fails both the
sign/decimal/K-M-B-T grammar and the plain-float parse raises — including
the em-dash, which that variant does not treat as a placeholder.  The
vendor variant `parse_bing_number` never raises on unparsable text (it
yields "no value", e.g. on `"not-a-number"`): its only error is the
`IndexError` on nonempty input that becomes empty after comma stripping;
and the SEC variant `parse_sec_number` is total, yielding "no value" on
unparsable text. -/
theorem normalizer_error_behaviour :
    (parse_numeric .vnone = .ok none ∧ parse_numeric (.vstr "") = .ok none
      ∧ parse_numeric (.vstr "-") = .ok none)
    ∧ (∃ e, parse_numeric (.vstr "—") = .error e)
    ∧ (∀ s : String, pyStripChars s.data ≠ [] → pyStripChars s.data ≠ ['-'] →
        (pyStripChars s.data).getLast? ≠ some '%' →
        matchUnitPattern (pyStripChars s.data) = none →
        pyFloatChars (pyStripChars s.data) = none →
        ∃ e, parse_numeric (.vstr s) = .error e)
    ∧ (∀ (s : String) (e : String), parse_bing_number s = .error e →
        pyStripChars (removeCommas s.data) = [] ∧ s ≠ "")
    ∧ parse_bing_number "not-a-number" = .ok none
    ∧ parse_sec_number "abc" = none := by
  refine ⟨⟨rfl, rfl, rfl⟩, ⟨_, rfl⟩, ?_, ?_, by with_unfolding_all rfl, rfl⟩
  · intro s h1 h2 h3 h4 h5
    unfold parse_numeric parseNumericChars
    simp only [parseNumericFuel]
    rw [if_neg h1, if_neg h2, if_neg h3, h4, h5]
    exact ⟨_, rfl⟩
  · intro s e he
    unfold parse_bing_number at he
    by_cases hs : s.data = []
    · rw [if_pos hs] at he
      cases he
    · rw [if_neg hs] at he
      have hne : s ≠ "" := by
        intro h
        rw [h] at hs
        exact hs rfl
      by_cases hdash : (pyStripChars (removeCommas s.data) = ['-']
          || pyStripChars (removeCommas s.data) = ['—']) = true
      · rw [if_pos hdash] at he
        cases he
      · rw [if_neg hdash] at he
        cases hlast : (pyStripChars (removeCommas s.data)).getLast? with
        | none =>
          refine ⟨?_, hne⟩
          cases hx : pyStripChars (removeCommas s.data) with
          | nil => rfl
          | cons a t =>
            rw [hx, getLast?_cons_eq] at hlast
            cases hlast
        | some c =>
          exfalso
          rw [hlast] at he
          dsimp only at he
          cases hf : pyFloatChars (if c = 'B' || c = 'M' || c = 'K'
              then (pyStripChars (removeCommas s.data)).dropLast
              else pyStripChars (removeCommas s.data)) with
          | some q =>
            rw [hf] at he
            cases he
          | none =>
            rw [hf] at he
            cases he

/-- Witness for `normalizer_error_behaviour`: its malformed-input clause at
the unparsable string `"abc"` and its `IndexError` clause at the comma-only
string `","`. -/
theorem normalizer_error_behaviour_witness :
    (∃ e, parse_numeric (.vstr "abc") = .error e)
    ∧ (pyStripChars (removeCommas (",").data) = [] ∧ ("," : String) ≠ "") := by
  constructor
  · exact normalizer_error_behaviour.2.2.1 "abc" (by decide) (by decide) (by decide)
      (by with_unfolding_all rfl) (by with_unfolding_all rfl)
  · exact normalizer_error_behaviour.2.2.2.1 "," "IndexError: string index out of range"
      (by with_unfolding_all rfl)

/-! ## C6 — normalizer value mapping -/

theorem getLast?_mem {α : Type} : ∀ {l : List α} {x : α}, l.getLast? = some x → x ∈ l := by
  intro l
  induction l with
  | nil =>
    intro x h
    cases h
  | cons a t ih =>
    intro x h
    rw [getLast?_cons_eq] at h
    have hx : (t.getLast?).getD a = x := Option.some.inj h
    cases ht : t.getLast? with
    | none =>
      rw [ht] at hx
      simp only [Option.getD] at hx
      rw [← hx]
      exact List.mem_cons_self a t
    | some y =>
      rw [ht] at hx
      simp only [Option.getD] at hx
      rw [← hx]
      exact List.mem_cons_of_mem a (ih ht)

theorem takeSign_decomp (cs : List Char) (sg : ℚ) (rest : List Char)
    (h : takeSign cs = (sg, rest)) :
    ∃ pre, cs = pre ++ rest ∧ ∀ c ∈ pre, c = '+' ∨ c = '-' := by
  cases cs with
  | nil =>
    unfold takeSign at h
    dsimp only at h
    have : rest = ([] : List Char) := congrArg Prod.snd h.symm
    exact ⟨[], by rw [this]; rfl, by simp⟩
  | cons c t =>
    unfold takeSign at h
    dsimp only at h
    by_cases h1 : c = '+'
    · rw [if_pos h1] at h
      have ht : rest = t := (congrArg Prod.snd h).symm
      refine ⟨[c], by rw [ht]; rfl, ?_⟩
      intro d hd
      rw [List.mem_singleton.mp hd]
      exact Or.inl h1
    · rw [if_neg h1] at h
      by_cases h2 : c = '-'
      · rw [if_pos h2] at h
        have ht : rest = t := (congrArg Prod.snd h).symm
        refine ⟨[c], by rw [ht]; rfl, ?_⟩
        intro d hd
        rw [List.mem_singleton.mp hd]
        exact Or.inr h2
      · rw [if_neg h2] at h
        have ht : rest = c :: t := (congrArg Prod.snd h).symm
        exact ⟨[], by rw [ht]; rfl, by simp⟩

theorem takeUnitNumber_decomp (cs : List Char) (q : ℚ) (rest : List Char)
    (h : takeUnitNumber cs = some (q, rest)) :
    ∃ pre, cs = pre ++ rest
      ∧ ∀ c ∈ pre, c.isDigit = true ∨ c = '.' ∨ c = '+' ∨ c = '-' := by
  unfold takeUnitNumber at h
  simp only [List.span_eq_take_drop] at h
  obtain ⟨spre, hse, hsc⟩ := takeSign_decomp cs (takeSign cs).1 (takeSign cs).2 rfl
  have hD : (takeSign cs).2
      = (takeSign cs).2.takeWhile Char.isDigit ++ (takeSign cs).2.dropWhile Char.isDigit :=
    (List.takeWhile_append_dropWhile Char.isDigit _).symm
  have hsign : ∀ c ∈ spre, c.isDigit = true ∨ c = '.' ∨ c = '+' ∨ c = '-' := by
    intro c hc
    rcases hsc c hc with h1 | h1
    · exact Or.inr (Or.inr (Or.inl h1))
    · exact Or.inr (Or.inr (Or.inr h1))
  cases hdw : (takeSign cs).2.dropWhile Char.isDigit with
  | nil =>
    rw [hdw] at h
    dsimp only at h
    by_cases hemp : ((takeSign cs).2.takeWhile Char.isDigit).isEmpty = true
    · rw [if_pos hemp] at h
      cases h
    · rw [if_neg hemp] at h
      have hrest : rest = [] := (congrArg Prod.snd (Option.some.inj h)).symm
      refine ⟨spre ++ (takeSign cs).2.takeWhile Char.isDigit, ?_, ?_⟩
      · calc cs = spre ++ (takeSign cs).2 := hse
          _ = spre ++ ((takeSign cs).2.takeWhile Char.isDigit
              ++ (takeSign cs).2.dropWhile Char.isDigit) := congrArg (fun l => spre ++ l) hD
          _ = spre ++ ((takeSign cs).2.takeWhile Char.isDigit ++ []) := by rw [hdw]
          _ = (spre ++ (takeSign cs).2.takeWhile Char.isDigit) ++ rest := by
              rw [hrest, List.append_nil, List.append_nil]
      · intro c hc
        rcases List.mem_append.mp hc with hc | hc
        · exact hsign c hc
        · exact Or.inl (List.mem_takeWhile_imp hc)
  | cons c0 r2 =>
    rw [hdw] at h
    dsimp only at h
    by_cases hdot : c0 = '.'
    · rw [if_pos hdot] at h
      by_cases hemp : (r2.takeWhile Char.isDigit).isEmpty = true
      · rw [if_pos hemp] at h
        cases h
      · rw [if_neg hemp] at h
        have hrest : rest = r2.dropWhile Char.isDigit :=
          (congrArg Prod.snd (Option.some.inj h)).symm
        refine ⟨spre ++ (takeSign cs).2.takeWhile Char.isDigit
            ++ (c0 :: r2.takeWhile Char.isDigit), ?_, ?_⟩
        · calc cs = spre ++ (takeSign cs).2 := hse
            _ = spre ++ ((takeSign cs).2.takeWhile Char.isDigit
                ++ (takeSign cs).2.dropWhile Char.isDigit) := congrArg (fun l => spre ++ l) hD
            _ = spre ++ ((takeSign cs).2.takeWhile Char.isDigit ++ (c0 :: r2)) := by rw [hdw]
            _ = spre ++ ((takeSign cs).2.takeWhile Char.isDigit
                ++ (c0 :: (r2.takeWhile Char.isDigit ++ r2.dropWhile Char.isDigit))) := by
                rw [List.takeWhile_append_dropWhile]
            _ = (spre ++ (takeSign cs).2.takeWhile Char.isDigit
                ++ (c0 :: r2.takeWhile Char.isDigit)) ++ r2.dropWhile Char.isDigit := by
                simp [List.append_assoc]
            _ = (spre ++ (takeSign cs).2.takeWhile Char.isDigit
                ++ (c0 :: r2.takeWhile Char.isDigit)) ++ rest := by rw [hrest]
        · intro c hc
          rcases List.mem_append.mp hc with hc | hc
          · rcases List.mem_append.mp hc with hc | hc
            · exact hsign c hc
            · exact Or.inl (List.mem_takeWhile_imp hc)
          · rcases List.mem_cons.mp hc with hc | hc
            · exact Or.inr (Or.inl (hc.trans hdot))
            · exact Or.inl (List.mem_takeWhile_imp hc)
    · rw [if_neg hdot] at h
      by_cases hemp : ((takeSign cs).2.takeWhile Char.isDigit).isEmpty = true
      · rw [if_pos hemp] at h
        cases h
      · rw [if_neg hemp] at h
        have hrest : rest = c0 :: r2 := (congrArg Prod.snd (Option.some.inj h)).symm
        refine ⟨spre ++ (takeSign cs).2.takeWhile Char.isDigit, ?_, ?_⟩
        · calc cs = spre ++ (takeSign cs).2 := hse
            _ = spre ++ ((takeSign cs).2.takeWhile Char.isDigit
                ++ (takeSign cs).2.dropWhile Char.isDigit) := congrArg (fun l => spre ++ l) hD
            _ = spre ++ ((takeSign cs).2.takeWhile Char.isDigit ++ (c0 :: r2)) := by rw [hdw]
            _ = (spre ++ (takeSign cs).2.takeWhile Char.isDigit) ++ rest := by
                rw [hrest, List.append_assoc]
        · intro c hc
          rcases List.mem_append.mp hc with hc | hc
          · exact hsign c hc
          · exact Or.inl (List.mem_takeWhile_imp hc)

theorem matchUnitPattern_chars (cs0 : List Char) (r : ℚ × Option Char)
    (h : matchUnitPattern cs0 = some r) :
    ∀ c ∈ cs0, isPySpace c = true ∨ c.isDigit = true ∨ c = '.' ∨ c = '+' ∨ c = '-'
      ∨ c = 'K' ∨ c = 'M' ∨ c = 'B' ∨ c = 'T' := by
  unfold matchUnitPattern at h
  dsimp only at h
  cases htn : takeUnitNumber (cs0.dropWhile isPySpace) with
  | none =>
    rw [htn] at h
    cases h
  | some pr =>
    rcases pr with ⟨q, rest⟩
    rw [htn] at h
    dsimp only at h
    obtain ⟨pre, hpre, hprec⟩ := takeUnitNumber_decomp _ q rest htn
    have hcs0 : cs0 = cs0.takeWhile isPySpace ++ (pre ++ rest) := by
      rw [← hpre]
      exact (List.takeWhile_append_dropWhile isPySpace cs0).symm
    have hprec' : ∀ c ∈ pre, isPySpace c = true ∨ c.isDigit = true ∨ c = '.' ∨ c = '+'
        ∨ c = '-' ∨ c = 'K' ∨ c = 'M' ∨ c = 'B' ∨ c = 'T' := by
      intro c hc
      rcases hprec c hc with h1 | h1 | h1 | h1
      · exact Or.inr (Or.inl h1)
      · exact Or.inr (Or.inr (Or.inl h1))
      · exact Or.inr (Or.inr (Or.inr (Or.inl h1)))
      · exact Or.inr (Or.inr (Or.inr (Or.inr (Or.inl h1))))
    have hrest_ok : ∀ c ∈ rest, isPySpace c = true ∨ c.isDigit = true ∨ c = '.' ∨ c = '+'
        ∨ c = '-' ∨ c = 'K' ∨ c = 'M' ∨ c = 'B' ∨ c = 'T' := by
      cases hrd : rest.dropWhile isPySpace with
      | nil =>
        intro c hc
        exact Or.inl (List.dropWhile_eq_nil_iff.mp hrd c hc)
      | cons u r2 =>
        rw [hrd] at h
        dsimp only at h
        by_cases hcond : ((u = 'K' || u = 'M' || u = 'B' || u = 'T')
            && (r2.dropWhile isPySpace).isEmpty) = true
        · have hu : u = 'K' ∨ u = 'M' ∨ u = 'B' ∨ u = 'T' := by
            have h1 := (Bool.and_eq_true _ _).mp hcond |>.1
            rcases (Bool.or_eq_true _ _).mp h1 with h2 | h2
            · rcases (Bool.or_eq_true _ _).mp h2 with h3 | h3
              · rcases (Bool.or_eq_true _ _).mp h3 with h4 | h4
                · exact Or.inl (by simpa using h4)
                · exact Or.inr (Or.inl (by simpa using h4))
              · exact Or.inr (Or.inr (Or.inl (by simpa using h3)))
            · exact Or.inr (Or.inr (Or.inr (by simpa using h2)))
          have hr2 : ∀ c ∈ r2, isPySpace c = true := by
            have h2 := (Bool.and_eq_true _ _).mp hcond |>.2
            have : r2.dropWhile isPySpace = [] := by
              cases hx : r2.dropWhile isPySpace
              · rfl
              · rw [hx] at h2
                exact absurd h2 (by simp)
            exact List.dropWhile_eq_nil_iff.mp this
          have hrest_split : rest = rest.takeWhile isPySpace ++ (u :: r2) := by
            rw [← hrd]
            exact (List.takeWhile_append_dropWhile isPySpace rest).symm
          intro c hc
          rw [hrest_split] at hc
          rcases List.mem_append.mp hc with hc | hc
          · exact Or.inl (List.mem_takeWhile_imp hc)
          · rcases List.mem_cons.mp hc with hc | hc
            · subst hc
              rcases hu with h1 | h1 | h1 | h1
              · exact Or.inr (Or.inr (Or.inr (Or.inr (Or.inr (Or.inl h1)))))
              · exact Or.inr (Or.inr (Or.inr (Or.inr (Or.inr (Or.inr (Or.inl h1))))))
              · exact Or.inr (Or.inr (Or.inr (Or.inr (Or.inr (Or.inr (Or.inr (Or.inl h1)))))))
              · exact Or.inr (Or.inr (Or.inr (Or.inr (Or.inr (Or.inr (Or.inr (Or.inr h1)))))))
            · exact Or.inl (hr2 c hc)
        · rw [if_neg hcond] at h
          cases h
    intro c hc
    rw [hcs0] at hc
    rcases List.mem_append.mp hc with hc | hc
    · exact Or.inl (List.mem_takeWhile_imp hc)
    · rcases List.mem_append.mp hc with hc | hc
      · exact hprec' c hc
      · exact hrest_ok c hc

theorem matchUnitPattern_no_percent_last (cs : List Char) (r : ℚ × Option Char)
    (h : matchUnitPattern cs = some r) : cs.getLast? ≠ some '%' := by
  intro hl
  rcases matchUnitPattern_chars cs r h '%' (getLast?_mem hl)
    with h1 | h1 | h1 | h1 | h1 | h1 | h1 | h1 | h1 <;> exact absurd h1 (by decide)

/-- Claim C6: the numeric normalizer maps `"1.86B"` to `1.86e9`,
`"-407.00M"` to `-4.07e8`, `"51.5%"` to `0.515` and `"-"` to no value; in
general the K/M/B/T magnitude suffixes multiply the matched numeric part by
`1e3`/`1e6`/`1e9`/`1e12`, and appending a trailing `%` divides the parsed
value by 100. -/
theorem normalizer_value_mapping :
    parse_numeric (.vstr "1.86B") = .ok (some (1.86e9 : ℚ))
    ∧ parse_numeric (.vstr "-407.00M") = .ok (some (-4.07e8 : ℚ))
    ∧ parse_numeric (.vstr "51.5%") = .ok (some (0.515 : ℚ))
    ∧ parse_numeric (.vstr "-") = .ok none
    ∧ (unitMultiplier (some 'K') = (1e3 : ℚ) ∧ unitMultiplier (some 'M') = (1e6 : ℚ)
        ∧ unitMultiplier (some 'B') = (1e9 : ℚ) ∧ unitMultiplier (some 'T') = (1e12 : ℚ))
    ∧ (∀ (s : String) (q : ℚ) (u : Char),
        matchUnitPattern (pyStripChars s.data) = some (q, some u) →
        parse_numeric (.vstr s) = .ok (some (q * unitMultiplier (some u))))
    ∧ (∀ (s : String) (q : Option ℚ),
        parse_numeric (.vstr s) = .ok q →
        parse_numeric (.vstr (s ++ "%")) = .ok (q.map (fun x => x / 100))) := by
  refine ⟨by with_unfolding_all rfl, by with_unfolding_all rfl, by with_unfolding_all rfl,
    rfl, ⟨by with_unfolding_all rfl, by with_unfolding_all rfl, by with_unfolding_all rfl,
      by with_unfolding_all rfl⟩, ?_, ?_⟩
  · intro s q u hm
    have h1 : pyStripChars s.data ≠ [] := by
      intro h
      rw [h] at hm
      rw [show matchUnitPattern ([] : List Char) = none from rfl] at hm
      exact Option.noConfusion hm
    have h2 : ¬(pyStripChars s.data = ['-']) := by
      intro h
      rw [h] at hm
      rw [show matchUnitPattern ['-'] = none from rfl] at hm
      exact Option.noConfusion hm
    have h3 := matchUnitPattern_no_percent_last _ _ hm
    unfold parse_numeric parseNumericChars
    dsimp only
    simp only [parseNumericFuel]
    rw [if_neg h1, if_neg h2, if_neg h3, hm]
  · intro s q hq
    have hdata : (s ++ "%").data = s.data ++ ['%'] := by
      rw [String.data_append]
    unfold parse_numeric parseNumericChars at hq ⊢
    dsimp only at hq ⊢
    rw [hdata]
    have hlen : (s.data ++ ['%']).length = s.data.length + 1 := by simp
    rw [hlen]
    simp only [parseNumericFuel]
    rw [pyStripChars_append_percent]
    have hne : s.data.dropWhile isPySpace ++ ['%'] ≠ [] := by simp
    have hnd : ¬(s.data.dropWhile isPySpace ++ ['%'] = ['-']) := by
      intro h
      have hgl := congrArg List.getLast? h
      rw [getLast?_concat_percent] at hgl
      have hdd : (['-'] : List Char).getLast? = some '-' := rfl
      rw [hdd] at hgl
      exact absurd (Option.some.inj hgl) (by decide)
    rw [if_neg hne, if_neg hnd, if_pos (getLast?_concat_percent _), List.dropLast_concat]
    have hdl : (s.data.dropWhile isPySpace).length < s.data.length + 1 :=
      lt_of_le_of_lt (List.dropWhile_sublist _).length_le (Nat.lt_succ_self _)
    have hagree := parseNumericFuel_agree (s.data.length + 1) (s.data.dropWhile isPySpace)
      (s.data.length + 1) s.data hdl (Nat.lt_succ_self _) (pyStripChars_dropWhile s.data)
    cases hr : parseNumericFuel (s.data.length + 1) (s.data.dropWhile isPySpace) with
    | ok a =>
      rw [hr, hq] at hagree
      have ha : a = q := hagree
      subst ha
      simp only [parseNumericFuel] at hr
      rw [hr]
      cases a with
      | none => rfl
      | some x => rfl
    | error e =>
      rw [hr, hq] at hagree
      exact absurd hagree (by simp [okAgree])

/-- Witness for `normalizer_value_mapping`: its suffix clause at the string
`"2K"` and its percent clause at the string `"4"`. -/
theorem normalizer_value_mapping_witness :
    parse_numeric (.vstr "2K") = .ok (some ((2 : ℚ) * unitMultiplier (some 'K')))
    ∧ parse_numeric (.vstr "4%") = .ok ((some (4 : ℚ)).map (fun x => x / 100)) := by
  constructor
  · exact normalizer_value_mapping.2.2.2.2.2.1 "2K" 2 'K' (by with_unfolding_all rfl)
  · exact normalizer_value_mapping.2.2.2.2.2.2 "4" (some 4) (by with_unfolding_all rfl)

/-! ## C9 — matcher zero-value guard -/

/-- Claim C9: the matcher called with SEC value exactly 0 returns the empty
list, for every vendor value map and tolerance configuration: the
short-circuit fires before any relative error is computed. -/
theorem matcher_zero_guard (bing_values : List (String × ℚ)) (max_tol step : ℚ) :
    find_close_matches_stepup 0 bing_values max_tol step = [] := by
  simp [find_close_matches_stepup]

/-! ## C8 — merged metric table has unique keys and preserves values -/

theorem digitChar_toNat {d : ℕ} (hd : d < 10) : (Char.ofNat (48 + d)).toNat = 48 + d := by
  have hv : (48 + d).isValidChar := Or.inl (by omega)
  simp [Char.ofNat, hv, Char.ofNatAux, Char.toNat, UInt32.toNat, BitVec.toNat_ofNat]
  try omega

theorem digitChar_inj {d₁ d₂ : ℕ} (h₁ : d₁ < 10) (h₂ : d₂ < 10)
    (he : Char.ofNat (48 + d₁) = Char.ofNat (48 + d₂)) : d₁ = d₂ := by
  have hn := congrArg Char.toNat he
  rw [digitChar_toNat h₁, digitChar_toNat h₂] at hn
  omega

theorem digitList_map_inj : ∀ (l₁ l₂ : List ℕ), (∀ d ∈ l₁, d < 10) → (∀ d ∈ l₂, d < 10) →
    l₁.map (fun d => Char.ofNat (48 + d)) = l₂.map (fun d => Char.ofNat (48 + d)) →
    l₁ = l₂ := by
  intro l₁
  induction l₁ with
  | nil =>
    intro l₂ _ _ h
    cases l₂ with
    | nil => rfl
    | cons e u => simp at h
  | cons d t ih =>
    intro l₂ h₁ h₂ h
    cases l₂ with
    | nil => simp at h
    | cons e u =>
      simp only [List.map_cons, List.cons.injEq] at h
      have hd : d = e := digitChar_inj (h₁ d (List.mem_cons_self d t))
        (h₂ e (List.mem_cons_self e u)) h.1
      have ht : t = u := ih u (fun x hx => h₁ x (List.mem_cons_of_mem d hx))
        (fun x hx => h₂ x (List.mem_cons_of_mem e hx)) h.2
      rw [hd, ht]

theorem natStr_inj {m n : ℕ} (hm : 0 < m) (hn : 0 < n) (he : natStr m = natStr n) :
    m = n := by
  unfold natStr at he
  rw [if_neg (Nat.pos_iff_ne_zero.mp hm), if_neg (Nat.pos_iff_ne_zero.mp hn)] at he
  have hdata : ((Nat.digits 10 m).reverse).map (fun d => Char.ofNat (48 + d))
      = ((Nat.digits 10 n).reverse).map (fun d => Char.ofNat (48 + d)) :=
    congrArg String.data he
  have hrev : (Nat.digits 10 m).reverse = (Nat.digits 10 n).reverse := by
    refine digitList_map_inj _ _ ?_ ?_ hdata
    · intro d hd
      exact Nat.digits_lt_base (by norm_num) (List.mem_reverse.mp hd)
    · intro d hd
      exact Nat.digits_lt_base (by norm_num) (List.mem_reverse.mp hd)
  have hdig : Nat.digits 10 m = Nat.digits 10 n := List.reverse_injective hrev
  have hofd := congrArg (Nat.ofDigits 10) hdig
  rwa [Nat.ofDigits_digits, Nat.ofDigits_digits] at hofd

theorem freshSuffixFuel_ge (taken : ℕ → Bool) : ∀ (fuel start : ℕ),
    start ≤ freshSuffixFuel taken fuel start := by
  intro fuel
  induction fuel with
  | zero =>
    intro start
    exact Nat.le_refl start
  | succ f ih =>
    intro start
    unfold freshSuffixFuel
    by_cases h : taken start = true
    · rw [if_pos h]
      exact Nat.le_trans (Nat.le_succ start) (ih (start + 1))
    · rw [if_neg h]

theorem freshSuffixFuel_not_taken (taken : ℕ → Bool) : ∀ (fuel start : ℕ),
    (∃ k, k < fuel ∧ taken (start + k) = false) →
    taken (freshSuffixFuel taken fuel start) = false := by
  intro fuel
  induction fuel with
  | zero =>
    intro start h
    obtain ⟨k, hk, _⟩ := h
    exact absurd hk (Nat.not_lt_zero k)
  | succ f ih =>
    intro start h
    obtain ⟨k, hk, hkf⟩ := h
    unfold freshSuffixFuel
    by_cases hs : taken start = true
    · rw [if_pos hs]
      apply ih (start + 1)
      cases k with
      | zero =>
        rw [Nat.add_zero] at hkf
        rw [hs] at hkf
        exact absurd hkf (by simp)
      | succ j =>
        refine ⟨j, by omega, ?_⟩
        rw [show start + 1 + j = start + (j + 1) from by omega]
        exact hkf
    · rw [if_neg hs]
      exact Bool.eq_false_iff.mpr hs

theorem keyMem_iff_mem_keys {α : Type} (merged : List (String × α)) (k : String) :
    keyMem merged k = true ↔ k ∈ merged.map Prod.fst := by
  unfold keyMem
  rw [List.any_eq_true]
  constructor
  · rintro ⟨p, hp, hpk⟩
    exact List.mem_map.mpr ⟨p, hp, by simpa using hpk⟩
  · intro h
    obtain ⟨p, hp, hpe⟩ := List.mem_map.mp h
    exact ⟨p, hp, by simp [hpe]⟩

theorem suffixKey_inj (qual : String) {j k : ℕ}
    (h : qual ++ " #" ++ natStr (2 + j) = qual ++ " #" ++ natStr (2 + k)) : j = k := by
  have hd := congrArg String.data h
  simp only [String.data_append, List.append_assoc] at hd
  have h1 := List.append_cancel_left hd
  have h2 := List.append_cancel_left h1
  have h3 : natStr (2 + j) = natStr (2 + k) := by
    apply String.ext
    exact h2
  have := natStr_inj (by omega) (by omega) h3
  omega

theorem exists_free_suffix (merged : List (String × List (String × BVal))) (qual : String) :
    ∃ k, k < merged.length + 1
      ∧ keyMem merged (qual ++ " #" ++ natStr (2 + k)) = false := by
  by_contra hc
  push_neg at hc
  have hall : ∀ k, k < merged.length + 1 →
      (qual ++ " #" ++ natStr (2 + k)) ∈ merged.map Prod.fst := by
    intro k hk
    have hne := hc k hk
    have hb : keyMem merged (qual ++ " #" ++ natStr (2 + k)) = true := by
      cases hkm : keyMem merged (qual ++ " #" ++ natStr (2 + k)) with
      | false => exact absurd hkm hne
      | true => rfl
    exact (keyMem_iff_mem_keys merged _).mp hb
  set keysOf := (List.range (merged.length + 1)).map
    (fun k => qual ++ " #" ++ natStr (2 + k)) with hkeys
  have hnd : keysOf.Nodup := by
    rw [hkeys]
    exact (List.nodup_range _).map (fun a b hab => suffixKey_inj qual hab)
  have hsub : keysOf ⊆ merged.map Prod.fst := by
    intro x hx
    rw [hkeys] at hx
    obtain ⟨k, hk, rfl⟩ := List.mem_map.mp hx
    exact hall k (List.mem_range.mp hk)
  have hcard : keysOf.length ≤ (merged.map Prod.fst).length := by
    calc keysOf.length = keysOf.toFinset.card := (List.toFinset_card_of_nodup hnd).symm
    _ ≤ (merged.map Prod.fst).toFinset.card :=
        Finset.card_le_card (fun x hx => List.mem_toFinset.mpr (hsub (List.mem_toFinset.mp hx)))
    _ ≤ (merged.map Prod.fst).length := (merged.map Prod.fst).toFinset_card_le
  rw [hkeys] at hcard
  simp at hcard

theorem leastFreshSuffix_free (merged : List (String × List (String × BVal))) (qual : String) :
    keyMem merged (qual ++ " #" ++ natStr (leastFreshSuffix merged qual)) = false := by
  unfold leastFreshSuffix
  obtain ⟨k, hk, hfree⟩ := exists_free_suffix merged qual
  exact freshSuffixFuel_not_taken (fun n => keyMem merged (qual ++ " #" ++ natStr n))
    (merged.length + 1) 2 ⟨k, hk, hfree⟩

theorem leastFreshSuffix_ge_two (merged : List (String × List (String × BVal)))
    (qual : String) : 2 ≤ leastFreshSuffix merged qual := by
  unfold leastFreshSuffix
  exact freshSuffixFuel_ge _ _ 2

theorem chooseName_fresh (merged : List (String × List (String × BVal))) (raw key : String) :
    keyMem merged (chooseName merged raw key) = false := by
  unfold chooseName
  by_cases h1 : keyMem merged raw = true
  · rw [if_neg (by simp [h1])]
    dsimp only
    by_cases h2 : keyMem merged (raw ++ " (" ++ key ++ ")") = true
    · rw [if_neg (by simp [h2])]
      exact leastFreshSuffix_free merged (raw ++ " (" ++ key ++ ")")
    · have hb : keyMem merged (raw ++ " (" ++ key ++ ")") = false := Bool.eq_false_iff.mpr h2
      rw [if_pos (by simp [hb])]
      exact hb
  · have hb : keyMem merged raw = false := Bool.eq_false_iff.mpr h1
    rw [if_pos (by simp [hb])]
    exact hb

theorem chooseName_rel (merged : List (String × List (String × BVal))) (raw key : String) :
    finalKeyRel raw key (chooseName merged raw key) := by
  unfold chooseName finalKeyRel
  by_cases h1 : keyMem merged raw = true
  · rw [if_neg (by simp [h1])]
    dsimp only
    by_cases h2 : keyMem merged (raw ++ " (" ++ key ++ ")") = true
    · rw [if_neg (by simp [h2])]
      exact Or.inr (Or.inr ⟨leastFreshSuffix merged (raw ++ " (" ++ key ++ ")"),
        leastFreshSuffix_ge_two merged (raw ++ " (" ++ key ++ ")"), rfl⟩)
    · rw [if_pos (by simp [Bool.eq_false_iff.mpr h2])]
      exact Or.inr (Or.inl rfl)
  · rw [if_pos (by simp [Bool.eq_false_iff.mpr h1])]
    exact Or.inl rfl

theorem mergeStep_foldl (key : String) : ∀ (entries : List (String × BVal))
    (m : List (String × List (String × BVal))),
    entries.foldl (mergeStep key) m
      = mergeContrib m (entries.filterMap (fun p =>
          match p.2 with
          | .obj pv => some (p.1, key, pv)
          | _ => none)) := by
  intro entries
  induction entries with
  | nil =>
    intro m
    rfl
  | cons p rest ih =>
    intro m
    rw [List.foldl_cons, List.filterMap_cons]
    cases hp : p.2 with
    | vs v =>
      dsimp only
      rw [show mergeStep key m p = m from by unfold mergeStep; rw [hp]]
      exact ih m
    | arr vs =>
      dsimp only
      rw [show mergeStep key m p = m from by unfold mergeStep; rw [hp]]
      exact ih m
    | obj pv =>
      dsimp only
      rw [show mergeStep key m p = m ++ [(chooseName m p.1 key, pv)] from by
        unfold mergeStep
        rw [hp]]
      simp only [mergeContrib]
      exact ih (m ++ [(chooseName m p.1 key, pv)])
    | other =>
      dsimp only
      rw [show mergeStep key m p = m from by unfold mergeStep; rw [hp]]
      exact ih m

theorem mergeContrib_append (a b : List (String × String × List (String × BVal))) :
    ∀ m, mergeContrib m (a ++ b) = mergeContrib (mergeContrib m a) b := by
  induction a with
  | nil =>
    intro m
    rfl
  | cons c rest ih =>
    intro m
    obtain ⟨raw, key, pv⟩ := c
    simp only [List.cons_append, mergeContrib]
    exact ih _

theorem groups_foldl (bing : List (String × BVal)) : ∀ (keys : List String)
    (m : List (String × List (String × BVal))),
    keys.foldl (fun merged key => (stmtEntries bing key).foldl (mergeStep key) merged) m
      = mergeContrib m ((keys.map (fun k => (stmtEntries bing k).filterMap (fun p =>
          match p.2 with
          | .obj pv => some (p.1, k, pv)
          | _ => none))).flatten) := by
  intro keys
  induction keys with
  | nil =>
    intro m
    rfl
  | cons k rest ih =>
    intro m
    rw [List.foldl_cons, List.map_cons, List.flatten_cons, mergeContrib_append]
    rw [mergeStep_foldl k (stmtEntries bing k) m]
    exact ih _

theorem merged_eq_mergeContrib (bing : List (String × BVal)) :
    (get_bing_all_metrics bing).2 = mergeContrib [] (rawEntries bing) := by
  unfold get_bing_all_metrics rawEntries
  dsimp only
  exact groups_foldl bing STMT_KEYS []

theorem mergeContrib_spec : ∀ (conts : List (String × String × List (String × BVal)))
    (merged : List (String × List (String × BVal))),
    (merged.map Prod.fst).Nodup →
    ∃ suff, mergeContrib merged conts = merged ++ suff
      ∧ ((merged ++ suff).map Prod.fst).Nodup
      ∧ List.Forall₂ (fun r e => finalKeyRel r.1 r.2.1 e.1 ∧ e.2 = r.2.2) conts suff := by
  intro conts
  induction conts with
  | nil =>
    intro merged h
    exact ⟨[], by simp [mergeContrib], by simpa using h, List.Forall₂.nil⟩
  | cons rc rest ih =>
    intro merged h
    obtain ⟨raw, key, pv⟩ := rc
    have hfresh := chooseName_fresh merged raw key
    have hnew : ((merged ++ [(chooseName merged raw key, pv)]).map Prod.fst).Nodup := by
      rw [List.map_append]
      refine h.append (by simp) ?_
      intro a ha hb
      have hae : a = chooseName merged raw key := by simpa using hb
      have hmem : keyMem merged a = true := (keyMem_iff_mem_keys merged a).mpr ha
      rw [hae] at hmem
      rw [hfresh] at hmem
      exact Bool.noConfusion hmem
    obtain ⟨suff, he, hnd, hf⟩ := ih (merged ++ [(chooseName merged raw key, pv)]) hnew
    refine ⟨(chooseName merged raw key, pv) :: suff, ?_, ?_, ?_⟩
    · simp only [mergeContrib]
      rw [he, List.append_assoc]
      rfl
    · rw [List.append_assoc] at hnd
      exact hnd
    · exact List.Forall₂.cons ⟨chooseName_rel merged raw key, rfl⟩ hf

/-- Claim C8: for every vendor JSON document, the merged metric table built by
`get_bing_all_metrics` from the income_statement, balance_sheet and cash_flow
groups has pairwise-distinct metric keys, and each scanned dict-valued metric
keeps its period-value mapping under its final key — the final key being the
raw name, the statement-qualified name, or the qualified name with a numeric
suffix ≥ 2, per `finalKeyRel`. -/
theorem bing_metric_merge_unique (bing : List (String × BVal)) :
    ((get_bing_all_metrics bing).2.map Prod.fst).Nodup
    ∧ List.Forall₂ (fun r e => finalKeyRel r.1 r.2.1 e.1 ∧ e.2 = r.2.2)
        (rawEntries bing) ((get_bing_all_metrics bing).2) := by
  obtain ⟨suff, he, hnd, hf⟩ := mergeContrib_spec (rawEntries bing) [] (by simp)
  rw [merged_eq_mergeContrib bing, he]
  rw [List.nil_append] at hnd ⊢
  exact ⟨hnd, hf⟩

end SecData
